import Mathlib

/-!
# LinkedQueue (src/linked_queue.hpp): a shallow embedding and its properties

The C++ class `ics::LinkedQueue<T>` keeps a singly linked chain of heap nodes
(`LN`) between the pointers `front` and `rear`, and hands out `Iterator`
objects that hold raw pointers (`prev`, `current`) into that chain.

Embedding choices.

* Node memory.  Every `LN` a queue object allocates lives in that queue's own
  arena `mem : List (Option (LN T))`.  A pointer is `Option Nat` (`none` is
  `nullptr`, `some a` is the address `a`, an index into the arena);
  `new LN(v)` appends a cell, `delete p` overwrites the cell with `none` and
  addresses are never handed out twice.  The code never stores a pointer to a
  node of one queue inside another queue, so one arena per queue object loses
  nothing.
* Undefined behaviour is made observable: reading through `nullptr`, or
  through a pointer whose cell was deleted or never allocated, ends the
  operation with a `Fault`.  A C++ loop over the chain that would never
  terminate (a cyclic chain) ends with `Fault.nonTermination`: every such
  loop gets `mem.length + 1` units of fuel, and a walk over pairwise distinct
  cells can never use more than `mem.length`.
* `int` is `Int`.  The modification counter is a 32-bit `int` that is only ever
  changed by `++mod_count`; the increment is modelled with the two's complement
  wrap-around the compiled code has (`incr`: 2147483647 is followed by
  -2147483648).  The other `int` values count nodes of a chain (`size`, the
  result of `enqueue_all`) and stay far below 2^31 for any chain that fits in
  memory.
* `this` is a hidden argument of every member function.  The functions take
  the state of `*this` as an explicit argument and return the new state; the
  address of the object is passed separately where the code looks at it
  (`begin`, `end`, `operator =`).  Iterator operations take the state of the
  queue object `ref_queue` points to.
* `operator ==` on `T` is decidable equality.
-/

namespace ics

/-- Modelled from the spec: the exception classes of `ics_exceptions.hpp`, a header that
the queue includes and that is not part of the sources; the spec lists these failure kinds
(it calls `EmptyError` "EmptyQueue"). -/
inductive IcsError where
  | EmptyError
  | ConcurrentModificationError
  | CannotEraseError
  | IteratorPositionIllegal
  | ComparingDifferentIteratorsError
  | IteratorTypeError
  deriving DecidableEq

/-- Every way an operation can end without returning a result: a thrown exception, or
behaviour the C++ standard leaves undefined (or a loop that never ends). -/
inductive Fault where
  | thrown (e : IcsError)
  | nullDereference
  | danglingDereference
  | nonTermination
  deriving DecidableEq

/-- The outcome of a call: a result or a `Fault`. -/
inductive Res (α : Type) where
  | ok (a : α)
  | fail (f : Fault)
  deriving DecidableEq

/-- Sequencing of calls: the first fault ends the computation. -/
def Res.bind {α β : Type} (r : Res α) (k : α → Res β) : Res β :=
  match r with
  | .ok a => k a
  | .fail f => .fail f

instance : Monad Res where
  pure := Res.ok
  bind := Res.bind

/-- The statement `throw e`. -/
def raise {α : Type} (e : IcsError) : Res α := .fail (.thrown e)

/-- The value a 32-bit `int` holds for the mathematical integer `x`: two's complement
wrap-around into the range from -2147483648 to 2147483647. -/
def wrap32 (x : Int) : Int := (x + 2147483648) % 4294967296 - 2147483648

/-- The statement `++n` on an `int`. -/
def incr (n : Int) : Int := wrap32 (n + 1)

/-- The node class `LN`: a value and a pointer to the next node. -/
structure LN (T : Type) where
  value : T
  next : Option Nat := none
  deriving DecidableEq

/-- The data members of `LinkedQueue<T>`, together with the arena of the nodes this
object has allocated. -/
structure LinkedQueue (T : Type) where
  mem : List (Option (LN T)) := []
  front : Option Nat := none
  rear : Option Nat := none
  used : Int := 0
  mod_count : Int := 0
  deriving DecidableEq

/-- The data members of `LinkedQueue<T>::Iterator`; `ref_queue` is the address of the
queue object the iterator was created by. -/
structure Iterator where
  prev : Option Nat := none
  current : Option Nat
  ref_queue : Nat
  expected_mod_count : Int
  can_erase : Bool := true
  deriving DecidableEq

variable {T : Type}

/-- Reading `*p` for a node pointer `p`. -/
def deref (mem : List (Option (LN T))) : Option Nat → Res (LN T)
  | none => .fail .nullDereference
  | some a =>
    match mem[a]? with
    | some (some n) => .ok n
    | _ => .fail .danglingDereference

/-- The assignment `p->next = nx`. -/
def set_next (mem : List (Option (LN T))) (p : Option Nat) (nx : Option Nat) :
    Res (List (Option (LN T))) :=
  match p with
  | none => .fail .nullDereference
  | some a =>
    match mem[a]? with
    | some (some n) => .ok (mem.set a (some { n with next := nx }))
    | _ => .fail .danglingDereference

/-- The statement `delete p` for a pointer to a live node. -/
def delete_node (mem : List (Option (LN T))) : Option Nat → List (Option (LN T))
  | none => mem
  | some a => mem.set a none

namespace LinkedQueue

/-- `LinkedQueue()`: every member keeps its default initialiser. -/
def init : LinkedQueue T := {}

/-- `empty()`: `front == nullptr`. -/
def empty (q : LinkedQueue T) : Bool := q.front == none

/-- The `for (LN* p = ...; p != nullptr; p = p->next) size += 1` loop of `size()`. -/
def size_loop (mem : List (Option (LN T))) : Nat → Option Nat → Int → Res Int
  | _, none, size => .ok size
  | 0, some _, _ => .fail .nonTermination
  | fuel + 1, some a, size =>
    match deref mem (some a) with
    | .ok n => size_loop mem fuel n.next (size + 1)
    | .fail f => .fail f

/-- `size()`: counts the nodes reachable from `front`. -/
def size (q : LinkedQueue T) : Res Int :=
  if q.front != none then size_loop q.mem (q.mem.length + 1) q.front 0 else .ok 0

/-- `peek()`: throws on `front == nullptr`, otherwise yields `front->value`. -/
def peek (q : LinkedQueue T) : Res T :=
  if q.front == none then raise .EmptyError
  else do
    let n ← deref q.mem q.front
    pure n.value

/-- `enqueue(element)`: returns the function result `1` and the new state. -/
def enqueue (q : LinkedQueue T) (element : T) : Res (Int × LinkedQueue T) :=
  if q.front == none then
    let a := q.mem.length
    pure (1, { q with mem := q.mem ++ [some ⟨element, none⟩], front := some a, rear := some a,
                      mod_count := incr q.mod_count })
  else do
    let a := q.mem.length
    let mem1 := q.mem ++ [some ⟨element, none⟩]
    let mem2 ← set_next mem1 q.rear (some a)
    let r ← deref mem2 q.rear
    pure (1, { q with mem := mem2, rear := r.next, mod_count := incr q.mod_count })

/-- `dequeue()`: throws on an empty queue, otherwise returns `front->value` and moves
`front` to `front->next`; `rear` is not touched and no node is deleted. -/
def dequeue (q : LinkedQueue T) : Res (T × LinkedQueue T) :=
  if q.empty == true then raise .EmptyError
  else do
    let n ← deref q.mem q.front
    let val := n.value
    let n2 ← deref q.mem q.front
    pure (val, { q with front := n2.next, mod_count := incr q.mod_count })

/-- `clear()`: both pointers become `nullptr`; no node is deleted. -/
def clear (q : LinkedQueue T) : LinkedQueue T :=
  { q with front := none, rear := none, mod_count := incr q.mod_count }

/-- `enqueue_all(i)` for an `std::initializer_list<T>` (or any container whose
iteration cannot fail): the range-for loop enqueues the elements in order and adds up the
results of `enqueue`. -/
def enqueue_all_list (q : LinkedQueue T) : List T → Int → Res (Int × LinkedQueue T)
  | [], count => pure (count, q)
  | v :: vs, count => do
    let (n, q1) ← enqueue q v
    enqueue_all_list q1 vs (count + n)

/-- `explicit LinkedQueue(const std::initializer_list<T>& il)`. -/
def from_list (il : List T) : Res (LinkedQueue T) := do
  let (_, q) ← enqueue_all_list init il 0
  pure q

/-- The loop `for (LN* p = rhs.front; p != nullptr; p = p->next) enqueue(p->value)` of
`operator =`, reading the nodes of `rhs` from `rmem`. -/
def assign_loop (rmem : List (Option (LN T))) : Nat → Option Nat → LinkedQueue T →
    Res (LinkedQueue T)
  | _, none, q => pure q
  | 0, some _, _ => .fail .nonTermination
  | fuel + 1, some a, q => do
    let n ← deref rmem (some a)
    let (_, q1) ← enqueue q n.value
    assign_loop rmem fuel n.next q1

/-- `operator =`: `this_addr` and `rhs_addr` are the addresses of the two objects, `q` and
`rhs` their states (when the addresses agree the states are the same object and `rhs` is not
looked at). -/
def assign (this_addr : Nat) (q : LinkedQueue T) (rhs_addr : Nat) (rhs : LinkedQueue T) :
    Res (LinkedQueue T) :=
  if this_addr == rhs_addr then pure q
  else do
    let q1 := clear q
    let q2 ← assign_loop rhs.mem (rhs.mem.length + 1) rhs.front q1
    pure { q2 with mod_count := incr q2.mod_count }

/-- The loop of `operator ==`: `p` walks `*this`, `temp` walks `rhs`. -/
def eq_loop [DecidableEq T] (mem rmem : List (Option (LN T))) :
    Nat → Option Nat → Option Nat → Res Bool
  | _, none, _ => pure true
  | 0, some _, _ => .fail .nonTermination
  | fuel + 1, some a, temp => do
    let t ← deref rmem temp
    let n ← deref mem (some a)
    if t.value = n.value then eq_loop mem rmem fuel n.next t.next
    else pure false

/-- `operator ==`. -/
def op_eq [DecidableEq T] (q rhs : LinkedQueue T) : Res Bool := do
  let s1 ← q.size
  let s2 ← rhs.size
  if s1 != s2 then pure false
  else eq_loop q.mem rhs.mem (q.mem.length + 1) q.front rhs.front

/-- `operator !=`: `!(*this == rhs)`. -/
def op_ne [DecidableEq T] (q rhs : LinkedQueue T) : Res Bool := do
  let r ← op_eq q rhs
  pure (!r)

/-- `begin()`: an iterator on the object at `this_addr`, positioned at `front`. -/
def begin (this_addr : Nat) (q : LinkedQueue T) : Iterator :=
  { current := q.front, ref_queue := this_addr, expected_mod_count := q.mod_count }

/-- `end()`: an iterator on the object at `this_addr`, positioned at `nullptr`. -/
def end_ (this_addr : Nat) (q : LinkedQueue T) : Iterator :=
  { current := none, ref_queue := this_addr, expected_mod_count := q.mod_count }

end LinkedQueue

namespace Iterator

/-- `Iterator::erase()`, on the state `q` of the queue `ref_queue` points to; returns the
erased value, the new queue state and the new iterator state. -/
def erase (q : LinkedQueue T) (it : Iterator) : Res (T × LinkedQueue T × Iterator) :=
  if it.expected_mod_count != q.mod_count then raise .ConcurrentModificationError
  else if !it.can_erase || it.current == none then raise .CannotEraseError
  else do
    let cur ← deref q.mem it.current
    let to_return := cur.value
    let to_delete := it.current
    if it.current == q.front then
      let current := cur.next
      let q1 := { q with front := current, mem := delete_node q.mem to_delete }
      let q2 := if current == none then { q1 with rear := it.prev } else q1
      pure (to_return, q2,
        { it with current := current, expected_mod_count := q2.mod_count, can_erase := false })
    else if it.prev != none then do
      let current := cur.next
      let mem1 ← set_next q.mem it.prev current
      let q1 := { q with mem := delete_node mem1 to_delete }
      let q2 := if current == none then { q1 with rear := it.prev } else q1
      pure (to_return, q2,
        { it with current := current, expected_mod_count := q2.mod_count, can_erase := false })
    else
      pure (to_return, q,
        { it with expected_mod_count := q.mod_count, can_erase := false })

/-- The step shared by both increment operators once their guards have passed:
`if (can_erase) { prev = current; current = current->next; } else can_erase = true;`. -/
def advance (q : LinkedQueue T) (it : Iterator) : Res Iterator :=
  if it.can_erase then do
    let cur ← deref q.mem it.current
    pure { it with prev := it.current, current := cur.next }
  else
    pure { it with can_erase := true }

/-- `operator ++ ()`, the pre-increment: returns the new state of the iterator. -/
def pre_inc (q : LinkedQueue T) (it : Iterator) : Res Iterator :=
  if it.expected_mod_count != q.mod_count then raise .ConcurrentModificationError
  else if it.current == none then pure it
  else advance q it

/-- `operator ++ (int)`, the post-increment: returns the function result and the new
state of the iterator. The guard reads `ref_queue->rear->next`. -/
def post_inc (q : LinkedQueue T) (it : Iterator) : Res (Iterator × Iterator) :=
  if it.expected_mod_count != q.mod_count then raise .ConcurrentModificationError
  else do
    let r ← deref q.mem q.rear
    if it.current == r.next then pure (it, it)
    else do
      let to_return := it
      let it1 ← advance q it
      pure (to_return, it1)

/-- `operator ==`. The `dynamic_cast` of `&rhs` to `const Iterator*` cannot yield null for
an `Iterator`, so `IteratorTypeError` is never thrown. -/
def op_eq (q : LinkedQueue T) (it rhs : Iterator) : Res Bool :=
  if it.expected_mod_count != q.mod_count then raise .ConcurrentModificationError
  else if it.ref_queue != rhs.ref_queue then raise .ComparingDifferentIteratorsError
  else pure (it.current == rhs.current)

/-- `operator !=`. -/
def op_ne (q : LinkedQueue T) (it rhs : Iterator) : Res Bool :=
  if it.expected_mod_count != q.mod_count then raise .ConcurrentModificationError
  else if it.ref_queue != rhs.ref_queue then raise .ComparingDifferentIteratorsError
  else pure (it.current != rhs.current)

/-- `operator *`: yields `current->value`. -/
def star (q : LinkedQueue T) (it : Iterator) : Res T :=
  if it.expected_mod_count != q.mod_count then raise .ConcurrentModificationError
  else if !it.can_erase || it.current == none then raise .IteratorPositionIllegal
  else do
    let cur ← deref q.mem it.current
    pure cur.value

/-- `operator ->`: yields `&current->value`, the address of the value member of the node
`current` points to, without reading the node; the result is that node pointer. -/
def arrow (q : LinkedQueue T) (it : Iterator) : Res (Option Nat) :=
  if it.expected_mod_count != q.mod_count then raise .ConcurrentModificationError
  else pure it.current

end Iterator

namespace LinkedQueue

/-- The range-for loop of `enqueue_all(i)` when `i` is a `LinkedQueue<T>` other than
`*this`: `for (b = i.begin(), e = i.end(); b != e; ++b) { v = *b; count += enqueue(v); }`,
with `src` the state of `i`. -/
def enqueue_all_loop (src : LinkedQueue T) (e : Iterator) :
    Nat → Iterator → LinkedQueue T → Int → Res (Int × LinkedQueue T)
  | fuel, b, q, count => do
    let go ← Iterator.op_ne src b e
    if go then
      match fuel with
      | 0 => .fail .nonTermination
      | fuel + 1 => do
        let v ← Iterator.star src b
        let (n, q1) ← enqueue q v
        let b1 ← Iterator.pre_inc src b
        enqueue_all_loop src e fuel b1 q1 (count + n)
    else pure (count, q)

/-- `enqueue_all(i)` for a `LinkedQueue<T>` `i` at address `src_addr`, other than
`*this`. -/
def enqueue_all_queue (q : LinkedQueue T) (src_addr : Nat) (src : LinkedQueue T) :
    Res (Int × LinkedQueue T) :=
  enqueue_all_loop src (end_ src_addr src) (src.mem.length + 1) (begin src_addr src) q 0

/-- `LinkedQueue(const LinkedQueue<T>& to_copy)`, the copy constructor. -/
def copy (src_addr : Nat) (to_copy : LinkedQueue T) : Res (LinkedQueue T) := do
  let (_, q) ← enqueue_all_queue init src_addr to_copy
  pure q

/-- The nodes reachable from `p`, as (address, value) pairs in chain order; `none` when
the walk meets a dangling pointer or does not end within `fuel` steps. -/
def walk (mem : List (Option (LN T))) : Nat → Option Nat → Option (List (Nat × T))
  | _, none => some []
  | 0, some _ => none
  | fuel + 1, some a =>
    match mem[a]? with
    | some (some n) => (walk mem fuel n.next).map (fun l => (a, n.value) :: l)
    | _ => none

/-- The chain of the queue: the nodes reachable from `front`. -/
def cells (q : LinkedQueue T) : Option (List (Nat × T)) :=
  walk q.mem (q.mem.length + 1) q.front

/-- The element sequence of the queue, head to tail. -/
def elements (q : LinkedQueue T) : Option (List T) :=
  (cells q).map (fun l => l.map Prod.snd)

end LinkedQueue

/-- A chain segment: following `next` from `p` visits exactly the cells `l` (address and
value, in order) and then arrives at `e`. -/
def Seg (mem : List (Option (LN T))) : Option Nat → List (Nat × T) → Option Nat → Prop
  | p, [], e => p = e
  | p, (a, x) :: l, e => p = some a ∧ ∃ nx, mem[a]? = some (some ⟨x, nx⟩) ∧ Seg mem nx l e

namespace LinkedQueue

/-- A client calling `enqueue(v)` for each `v` of a list, in order. -/
def enqueue_each (q : LinkedQueue T) : List T → Res (LinkedQueue T)
  | [] => pure q
  | v :: vs => do
    let (_, q1) ← enqueue q v
    enqueue_each q1 vs

/-- A client calling `dequeue()` `n` times, collecting the results in call order. -/
def dequeue_n : Nat → LinkedQueue T → Res (List T × LinkedQueue T)
  | 0, q => pure ([], q)
  | n + 1, q => do
    let (v, q1) ← dequeue q
    let (vs, q2) ← dequeue_n n q1
    pure (v :: vs, q2)

/-- The queue `q` is in a regular state with chain `l`: the nodes reachable from `front`
are exactly `l`, and when there is one, `rear` points to the last of them. -/
def Regular (q : LinkedQueue T) (l : List (Nat × T)) : Prop :=
  cells q = some l ∧ (l ≠ [] → q.rear = l.getLast?.map Prod.fst)

instance [DecidableEq T] (q : LinkedQueue T) (l : List (Nat × T)) : Decidable (Regular q l) := by
  unfold Regular
  infer_instance

/-- The state of `LinkedQueue<int>({1, 2, 3})`: three nodes at addresses 0, 1, 2. -/
def q123 : LinkedQueue Nat :=
  { mem := [some ⟨1, some 1⟩, some ⟨2, some 2⟩, some ⟨3, none⟩], front := some 0,
    rear := some 2, used := 0, mod_count := 3 }

/-- The state of `LinkedQueue<int>({1, 2})`: two nodes at addresses 0 and 1. -/
def q12 : LinkedQueue Nat :=
  { mem := [some ⟨1, some 1⟩, some ⟨2, none⟩], front := some 0, rear := some 1, used := 0,
    mod_count := 2 }

end LinkedQueue

namespace Iterator

/-- The iterator `it` is in step with the queue `q` whose chain is `l`: it is not stale,
`current` points to the cell at position `i` of the chain (`i = l.length` is the end
position, `current == nullptr`) and `prev` to the cell before it (`nullptr` at position
0). -/
def Tracks (q : LinkedQueue T) (l : List (Nat × T)) (it : Iterator) (i : Nat) : Prop :=
  it.expected_mod_count = q.mod_count ∧ i ≤ l.length ∧
    it.current = l[i]?.map Prod.fst ∧
    it.prev = (if i = 0 then none else l[i - 1]?.map Prod.fst)

/-- The operations a client can apply to an iterator it holds. -/
inductive IterOp where
  | pre_inc
  | post_inc
  | erase
  deriving DecidableEq

/-- One client call on the iterator `it` of the queue `q`: the new states of both. -/
def step (q : LinkedQueue T) (it : Iterator) : IterOp → Res (LinkedQueue T × Iterator)
  | .pre_inc => do
    let it1 ← pre_inc q it
    pure (q, it1)
  | .post_inc => do
    let (_, it1) ← post_inc q it
    pure (q, it1)
  | .erase => do
    let (_, q1, it1) ← erase q it
    pure (q1, it1)

/-- A sequence of client calls on one iterator, each of which returns. -/
def run (q : LinkedQueue T) (it : Iterator) : List IterOp → Res (LinkedQueue T × Iterator)
  | [] => pure (q, it)
  | op :: ops => do
    let (q1, it1) ← step q it op
    run q1 it1 ops

end Iterator

/-- One mutating call on a queue object: `enqueue(v)`, `dequeue()`, `clear()`, the copy
assignment `*this = rhs` (with the address and the state of `rhs`), or `it.erase()` through
an iterator of this queue. -/
inductive Mutation (T : Type) where
  | enqueue (v : T)
  | dequeue
  | clear
  | assign (rhs_addr : Nat) (rhs : LinkedQueue T)
  | erase (it : Iterator)

namespace Mutation

/-- The state of the queue object at `this_addr` after the mutating call returns. -/
def mutate (this_addr : Nat) (q : LinkedQueue T) : Mutation T → Res (LinkedQueue T)
  | .enqueue v => do
    let (_, q1) ← q.enqueue v
    pure q1
  | .dequeue => do
    let (_, q1) ← q.dequeue
    pure q1
  | .clear => pure q.clear
  | .assign rhs_addr rhs => LinkedQueue.assign this_addr q rhs_addr rhs
  | .erase it => do
    let (_, q1, _) ← Iterator.erase q it
    pure q1

/-- The calls made on the queue object itself, not through an iterator or from another
queue: `enqueue`, `dequeue`, `clear`. -/
def direct : Mutation T → Bool
  | .enqueue _ => true
  | .dequeue => true
  | .clear => true
  | _ => false

/-- A sequence of mutating calls on the queue object at `this_addr`, each of which
returns. -/
def mutate_all (this_addr : Nat) (q : LinkedQueue T) : List (Mutation T) → Res (LinkedQueue T)
  | [] => pure q
  | m :: ms => do
    let q1 ← mutate this_addr q m
    mutate_all this_addr q1 ms

/-- The mutating calls that change the element sequence of a queue at `this_addr` in state
`q` with chain `l`, when they return: every `enqueue` and `dequeue`; `clear` when the queue
holds an element; an assignment from another object whose element sequence is a
different one; an `erase` through an iterator that is in step with the queue. -/
def alters (this_addr : Nat) (q : LinkedQueue T) (l : List (Nat × T)) : Mutation T → Prop
  | .enqueue _ => True
  | .dequeue => True
  | .clear => l ≠ []
  | .assign rhs_addr rhs =>
    this_addr ≠ rhs_addr ∧ ∃ zs, rhs.elements = some zs ∧ zs ≠ l.map Prod.snd
  | .erase it => ∃ i, Iterator.Tracks q l it i

end Mutation

namespace Iterator

/-- The advance rule in the words of the specification: with `can_erase` set, `prev` moves
to the old `current` and `current` to its successor `succ`; with `can_erase` clear, the
cursor stays and `can_erase` is set. -/
def advance_spec (it : Iterator) (succ : Option Nat) : Iterator :=
  if it.can_erase then { it with prev := it.current, current := succ }
  else { it with can_erase := true }

end Iterator

/-- A call a client makes on the queue object itself. -/
inductive Call (T : Type) where
  | enqueue (v : T)
  | dequeue
  | clear

/-- What the client gets back from a call: the result of `enqueue`, the value `dequeue`
returned, the exception it caught, or nothing (`clear` returns `void`). -/
inductive Reply (T : Type) where
  | enqueued (n : Int)
  | dequeued (v : T)
  | threw (e : IcsError)
  | cleared
  deriving DecidableEq

/-- What the client sees after a call: the reply, and what `empty()` and `size()` then
return. -/
structure Observation (T : Type) where
  reply : Reply T
  empty : Bool
  size : Int
  deriving DecidableEq

namespace LinkedQueue

/-- One client call on the queue, with a `try`/`catch` around it: a thrown exception is
the reply and the queue is the one the call started from (`dequeue` throws before it
writes anything). Undefined behaviour ends the run. -/
def call (q : LinkedQueue T) : Call T → Res (Reply T × LinkedQueue T)
  | .enqueue v => do
    let (n, q1) ← enqueue q v
    pure (.enqueued n, q1)
  | .dequeue =>
    match dequeue q with
    | .ok (v, q1) => pure (.dequeued v, q1)
    | .fail (.thrown e) => pure (.threw e, q)
    | .fail f => .fail f
  | .clear => pure (.cleared, clear q)

/-- A client making the calls in order and looking at `empty()` and `size()` after each
one. -/
def observe (q : LinkedQueue T) : List (Call T) → Res (List (Observation T) × LinkedQueue T)
  | [] => pure ([], q)
  | c :: cs => do
    let (r, q1) ← call q c
    let s ← size q1
    let (os, q2) ← observe q1 cs
    pure (⟨r, empty q1, s⟩ :: os, q2)

end LinkedQueue

namespace ListModel

/-- The list model of a call, in the words of the specification: `enqueue(v)` appends `v`
and returns 1, `dequeue` on `x :: rest` returns `x` and leaves `rest`, `dequeue` on the
empty list signals the empty-queue error, `clear` leaves the empty list. -/
def call : List T → Call T → Reply T × List T
  | xs, .enqueue v => (.enqueued 1, xs ++ [v])
  | x :: rest, .dequeue => (.dequeued x, rest)
  | [], .dequeue => (.threw .EmptyError, [])
  | _, .clear => (.cleared, [])

/-- The observations the list model predicts: after each call, `empty()` is whether the
list is empty and `size()` is its length. -/
def observe : List T → List (Call T) → List (Observation T) × List T
  | xs, [] => ([], xs)
  | xs, c :: cs =>
    let r := call xs c
    let rest := observe r.2 cs
    (⟨r.1, r.2.isEmpty, r.2.length⟩ :: rest.1, rest.2)

end ListModel

/-- What a client loop over an iterator sees: a value read with `*it`, or a value returned
by `it.erase()`. -/
inductive Event (T : Type) where
  | deref (v : T)
  | erased (v : T)
  deriving DecidableEq

namespace LinkedQueue

/-- The client loop `while (it != q.end()) { it.erase(); ++it; }` on the queue object at
`addr`, collecting the values `erase()` returns. -/
def erase_all_loop (addr : Nat) :
    Nat → LinkedQueue T → Iterator → List T → Res (List T × LinkedQueue T × Iterator)
  | fuel, q, it, acc => do
    let go ← Iterator.op_ne q it (end_ addr q)
    if go then
      match fuel with
      | 0 => .fail .nonTermination
      | fuel + 1 => do
        let (v, q1, it1) ← Iterator.erase q it
        let it2 ← Iterator.pre_inc q1 it1
        erase_all_loop addr fuel q1 it2 (acc ++ [v])
    else pure (acc, q, it)

/-- The client code `it = q.begin(); while (it != q.end()) { it.erase(); ++it; }`. -/
def erase_all (addr : Nat) (q : LinkedQueue T) : Res (List T × LinkedQueue T × Iterator) :=
  erase_all_loop addr (q.mem.length + 1) q (begin addr q) []

/-- The client loop `for (; it != q.end(); ++it) { v = *it; if (p(v)) it.erase(); }` on
the queue object at `addr`, collecting what it reads and what `erase()` returns. -/
def erase_if_loop (p : T → Bool) (addr : Nat) :
    Nat → LinkedQueue T → Iterator → List (Event T) →
      Res (List (Event T) × LinkedQueue T × Iterator)
  | fuel, q, it, acc => do
    let go ← Iterator.op_ne q it (end_ addr q)
    if go then
      match fuel with
      | 0 => .fail .nonTermination
      | fuel + 1 => do
        let v ← Iterator.star q it
        if p v then do
          let (r, q1, it1) ← Iterator.erase q it
          let it2 ← Iterator.pre_inc q1 it1
          erase_if_loop p addr fuel q1 it2 (acc ++ [.deref v, .erased r])
        else do
          let it2 ← Iterator.pre_inc q it
          erase_if_loop p addr fuel q it2 (acc ++ [.deref v])
    else pure (acc, q, it)

/-- The client code
`for (it = q.begin(); it != q.end(); ++it) { v = *it; if (p(v)) it.erase(); }`. -/
def erase_if (p : T → Bool) (addr : Nat) (q : LinkedQueue T) :
    Res (List (Event T) × LinkedQueue T × Iterator) :=
  erase_if_loop p addr (q.mem.length + 1) q (begin addr q) []

/-- What the loop of `erase_if` is to see on a queue holding `xs`: every element is read
once, in order, and each element that satisfies `p` is then returned by `erase()`. -/
def expected_events (p : T → Bool) : List T → List (Event T)
  | [] => []
  | x :: xs =>
    if p x then .deref x :: .erased x :: expected_events p xs
    else .deref x :: expected_events p xs

end LinkedQueue

/-! ## Theorems -/

section Basics

variable {α β : Type}

@[simp] theorem Res.pure_eq (a : α) : (pure a : Res α) = Res.ok a := rfl

@[simp] theorem Res.ok_bind (a : α) (k : α → Res β) : (Res.ok a >>= k) = k a := rfl

@[simp] theorem Res.fail_bind (f : Fault) (k : α → Res β) :
    ((Res.fail f : Res α) >>= k) = Res.fail f := rfl

theorem deref_of_cell {mem : List (Option (LN T))} {a : Nat} {n : LN T}
    (h : mem[a]? = some (some n)) : deref mem (some a) = Res.ok n := by
  simp [deref, h]

theorem deref_some_fail {mem : List (Option (LN T))} {a : Nat} {f : Fault}
    (h : deref mem (some a) = Res.fail f) : f = Fault.danglingDereference := by
  simp only [deref] at h
  split at h
  · cases h
  · cases h
    rfl

theorem set_next_of_cell {mem : List (Option (LN T))} {a : Nat} {n : LN T} (nx : Option Nat)
    (h : mem[a]? = some (some n)) :
    set_next mem (some a) nx = Res.ok (mem.set a (some { n with next := nx })) := by
  simp [set_next, h]

theorem wrap32_of_range (x : Int) (hlo : -2147483648 ≤ x) (hhi : x ≤ 2147483647) :
    wrap32 x = x := by
  unfold wrap32
  omega

theorem incr_wrap32 (x : Int) : incr (wrap32 x) = wrap32 (x + 1) := by
  unfold incr wrap32
  omega

theorem iterate_incr (k : Nat) : ∀ m : Int, incr^[k + 1] m = wrap32 (m + k + 1) := by
  induction k with
  | zero =>
    intro m
    simp [incr]
  | succ k ih =>
    intro m
    rw [Function.iterate_succ_apply, ih (incr m)]
    unfold incr wrap32
    push_cast
    omega

theorem iterate_incr_pos (k : Nat) (m : Int) (hk : 0 < k) :
    incr^[k] m = wrap32 (m + k) := by
  obtain ⟨j, rfl⟩ : ∃ j, k = j + 1 := ⟨k - 1, by omega⟩
  rw [iterate_incr]
  push_cast
  rw [Int.add_assoc]

theorem wrap32_add_ne (m : Int) (k : Nat) (hk : k % 4294967296 ≠ 0) :
    wrap32 (m + k) ≠ m := by
  unfold wrap32
  omega

end Basics

section Chains

open LinkedQueue

theorem walk_none (mem : List (Option (LN T))) (f : Nat) : walk mem f none = some [] := by
  cases f <;> rfl

theorem seg_of_walk (mem : List (Option (LN T))) :
    ∀ (f : Nat) (p : Option Nat) (l : List (Nat × T)),
      walk mem f p = some l → Seg mem p l none ∧ l.length ≤ f := by
  intro f
  induction f with
  | zero =>
    intro p l h
    cases p with
    | none =>
      rw [walk_none] at h
      cases h
      exact ⟨rfl, Nat.le_refl _⟩
    | some a => simp [walk] at h
  | succ f ih =>
    intro p l h
    cases p with
    | none =>
      rw [walk_none] at h
      cases h
      exact ⟨rfl, Nat.zero_le _⟩
    | some a =>
      simp only [walk] at h
      cases hc : mem[a]? with
      | none => simp [hc] at h
      | some c =>
        cases c with
        | none => simp [hc] at h
        | some n =>
          simp only [hc, Option.map_eq_some'] at h
          obtain ⟨l', hl', rfl⟩ := h
          obtain ⟨hs, hlen⟩ := ih n.next l' hl'
          exact ⟨⟨rfl, n.next, by simp [hc], hs⟩, by simpa using hlen⟩

theorem walk_of_seg (mem : List (Option (LN T))) :
    ∀ (l : List (Nat × T)) (f : Nat) (p : Option Nat),
      Seg mem p l none → l.length ≤ f → walk mem f p = some l := by
  intro l
  induction l with
  | nil =>
    intro f p h _
    simp only [Seg] at h
    subst h
    exact walk_none mem f
  | cons c l ih =>
    intro f p h hlen
    obtain ⟨a, x⟩ := c
    obtain ⟨rfl, nx, hc, hs⟩ := h
    cases f with
    | zero => simp at hlen
    | succ f =>
      have := ih f nx hs (by simpa using hlen)
      simp [walk, hc, this]

theorem Seg.append {mem : List (Option (LN T))} :
    ∀ (l1 l2 : List (Nat × T)) (p e : Option Nat),
      Seg mem p (l1 ++ l2) e ↔ ∃ m, Seg mem p l1 m ∧ Seg mem m l2 e := by
  intro l1
  induction l1 with
  | nil =>
    intro l2 p e
    simp [Seg]
  | cons c l1 ih =>
    intro l2 p e
    obtain ⟨a, x⟩ := c
    show Seg mem p ((a, x) :: (l1 ++ l2)) e ↔ _
    constructor
    · rintro ⟨hp, nx, hc, h⟩
      obtain ⟨m, h1, h2⟩ := (ih l2 nx e).1 h
      exact ⟨m, ⟨hp, nx, hc, h1⟩, h2⟩
    · rintro ⟨m, ⟨hp, nx, hc, h1⟩, h2⟩
      exact ⟨hp, nx, hc, (ih l2 nx e).2 ⟨m, h1, h2⟩⟩

theorem Seg.det {mem : List (Option (LN T))} :
    ∀ (l1 l2 : List (Nat × T)) (p : Option Nat),
      Seg mem p l1 none → Seg mem p l2 none → l1 = l2 := by
  intro l1
  induction l1 with
  | nil =>
    intro l2 p h1 h2
    simp only [Seg] at h1
    subst h1
    cases l2 with
    | nil => rfl
    | cons c l2 =>
      obtain ⟨a, x⟩ := c
      simp [Seg] at h2
  | cons c l1 ih =>
    intro l2 p h1 h2
    obtain ⟨a, x⟩ := c
    obtain ⟨rfl, nx, hc, hs⟩ := h1
    cases l2 with
    | nil => simp [Seg] at h2
    | cons c2 l2 =>
      obtain ⟨b, y⟩ := c2
      obtain ⟨hb, ny, hc2, hs2⟩ := h2
      cases hb
      rw [hc] at hc2
      cases hc2
      rw [ih l2 nx hs hs2]

theorem Seg.lt {mem : List (Option (LN T))} :
    ∀ (l : List (Nat × T)) (p e : Option Nat),
      Seg mem p l e → ∀ a ∈ l.map Prod.fst, a < mem.length := by
  intro l
  induction l with
  | nil => intro p e _ a ha; simp at ha
  | cons c l ih =>
    intro p e h b hb
    obtain ⟨a, x⟩ := c
    obtain ⟨rfl, nx, hc, hs⟩ := h
    simp only [List.map_cons, List.mem_cons] at hb
    rcases hb with rfl | hb
    · by_contra hge
      rw [List.getElem?_eq_none (Nat.le_of_not_lt hge)] at hc
      cases hc
    · exact ih nx e hs b hb

theorem Seg.nodup {mem : List (Option (LN T))} :
    ∀ (l : List (Nat × T)) (p : Option Nat),
      Seg mem p l none → (l.map Prod.fst).Nodup := by
  intro l
  induction l with
  | nil => intro p _; simp
  | cons c l ih =>
    intro p h
    obtain ⟨a, x⟩ := c
    have hall := h
    obtain ⟨rfl, nx, hc, hs⟩ := h
    simp only [List.map_cons, List.nodup_cons]
    refine ⟨?_, ih nx hs⟩
    intro hmem
    obtain ⟨⟨a', y⟩, hin, ha'⟩ := List.mem_map.1 hmem
    simp only at ha'
    subst ha'
    obtain ⟨l1, l2, rfl⟩ := List.append_of_mem hin
    obtain ⟨m, _, h2⟩ := (Seg.append l1 ((a', y) :: l2) nx none).1 hs
    have hm : m = some a' := h2.1
    subst hm
    have := Seg.det _ _ _ h2 hall
    have hlen := congrArg List.length this
    simp at hlen
    omega

theorem Seg.length_le {mem : List (Option (LN T))} (l : List (Nat × T)) (p : Option Nat)
    (h : Seg mem p l none) : l.length ≤ mem.length := by
  have hnd := Seg.nodup l p h
  have hlt := Seg.lt l p none h
  have hsub : l.map Prod.fst ⊆ List.range mem.length := by
    intro a ha
    exact List.mem_range.2 (hlt a ha)
  have := (List.subperm_of_subset hnd hsub).length_le
  simpa using this

theorem cells_iff (q : LinkedQueue T) (l : List (Nat × T)) :
    cells q = some l ↔ Seg q.mem q.front l none := by
  constructor
  · intro h
    exact (seg_of_walk q.mem _ _ _ h).1
  · intro h
    exact walk_of_seg q.mem l _ _ h (Nat.le_succ_of_le (Seg.length_le l _ h))

theorem Seg.set_frame {mem : List (Option (LN T))} (b : Nat) (c : Option (LN T)) :
    ∀ (l : List (Nat × T)) (p e : Option Nat),
      Seg mem p l e → b ∉ l.map Prod.fst → Seg (mem.set b c) p l e := by
  intro l
  induction l with
  | nil => intro p e h _; exact h
  | cons d l ih =>
    intro p e h hb
    obtain ⟨a, x⟩ := d
    obtain ⟨rfl, nx, hc, hs⟩ := h
    simp only [List.map_cons, List.mem_cons, not_or] at hb
    refine ⟨rfl, nx, ?_, ih nx e hs hb.2⟩
    rw [List.getElem?_set_ne hb.1]
    exact hc

theorem Seg.append_frame {mem : List (Option (LN T))} (m2 : List (Option (LN T))) :
    ∀ (l : List (Nat × T)) (p e : Option Nat),
      Seg mem p l e → Seg (mem ++ m2) p l e := by
  intro l
  induction l with
  | nil => intro p e h; exact h
  | cons d l ih =>
    intro p e h
    obtain ⟨a, x⟩ := d
    have hlt := Seg.lt _ _ _ h a (by simp)
    obtain ⟨rfl, nx, hc, hs⟩ := h
    refine ⟨rfl, nx, ?_, ih nx e hs⟩
    rw [List.getElem?_append_left hlt]
    exact hc

end Chains

section QueueSteps

open LinkedQueue

theorem regular_iff (q : LinkedQueue T) (l : List (Nat × T)) :
    Regular q l ↔
      Seg q.mem q.front l none ∧ (l ≠ [] → q.rear = l.getLast?.map Prod.fst) := by
  unfold Regular
  rw [cells_iff]

theorem regular_init : Regular (init : LinkedQueue T) [] := by
  rw [regular_iff]
  exact ⟨rfl, fun h => absurd rfl h⟩

theorem elements_of_cells {q : LinkedQueue T} {l : List (Nat × T)} (h : cells q = some l) :
    elements q = some (l.map Prod.snd) := by
  simp [elements, h]

theorem front_of_seg_nil {q : LinkedQueue T} (h : Seg q.mem q.front [] none) :
    q.front = none := h

theorem enqueue_regular (q : LinkedQueue T) (l : List (Nat × T)) (v : T)
    (h : Regular q l) :
    ∃ q1, enqueue q v = Res.ok (1, q1) ∧ Regular q1 (l ++ [(q.mem.length, v)]) ∧
      q1.mod_count = incr q.mod_count ∧ q1.used = q.used := by
  rw [regular_iff] at h
  obtain ⟨hseg, hrear⟩ := h
  rcases List.eq_nil_or_concat l with rfl | ⟨l0, ⟨r, x⟩, rfl⟩
  · have hf : q.front = none := hseg
    refine ⟨{ q with mem := q.mem ++ [some (LN.mk v none)], front := some q.mem.length,
                     rear := some q.mem.length, mod_count := incr q.mod_count },
      by simp [enqueue, hf], ?_, rfl, rfl⟩
    rw [regular_iff]
    refine ⟨⟨rfl, none, ?_, rfl⟩, fun _ => rfl⟩
    simp
  · rw [List.concat_eq_append] at hseg hrear
    have hr : q.rear = some r := by
      rw [hrear (by simp), List.getLast?_concat]
      rfl
    obtain ⟨m, h0, h1⟩ := (Seg.append l0 [(r, x)] q.front none).1 hseg
    obtain ⟨rfl, nx, hc, hnx⟩ := h1
    have hnx' : nx = none := hnx
    subst hnx'
    have hnd := Seg.nodup _ _ hseg
    have hrlt : r < q.mem.length := Seg.lt _ _ _ hseg r (by simp)
    have hfront : q.front ≠ none := by
      intro hf
      rw [hf] at h0
      cases l0 with
      | nil => cases (h0 : none = some r)
      | cons c l0 =>
        obtain ⟨a, y⟩ := c
        cases h0.1
    have hrl0 : r ∉ l0.map Prod.fst := by
      simp only [List.map_append, List.map_cons, List.map_nil] at hnd
      have := (List.nodup_append.1 hnd).2.2
      intro hmem
      exact this hmem (by simp)
    have hc1 : (q.mem ++ [some (⟨v, none⟩ : LN T)])[r]? = some (some ⟨x, none⟩) := by
      rw [List.getElem?_append_left hrlt]
      exact hc
    have hlen1 : r < (q.mem ++ [some (⟨v, none⟩ : LN T)]).length := by
      simp
      omega
    refine ⟨{ q with mem := (q.mem ++ [some (LN.mk v none)]).set r
                              (some (LN.mk x (some q.mem.length))),
                     rear := some q.mem.length, mod_count := incr q.mod_count },
      ?_, ?_, rfl, rfl⟩
    · simp only [enqueue, hr]
      rw [set_next_of_cell _ hc1]
      have : ((q.front == none) = true) = False := by
        cases hq : q.front with
        | none => exact absurd hq hfront
        | some a => simp
      simp only [this, if_false, Res.ok_bind]
      rw [deref_of_cell (List.getElem?_set_self hlen1)]
      simp only [Res.ok_bind, Res.pure_eq]
    · rw [regular_iff]
      constructor
      · rw [List.concat_eq_append, List.append_assoc, Seg.append]
        refine ⟨some r, ?_, ?_⟩
        · exact Seg.set_frame r _ l0 _ _ (Seg.append_frame _ l0 _ _ h0) hrl0
        · refine ⟨rfl, some q.mem.length, List.getElem?_set_self hlen1, rfl, none, ?_, rfl⟩
          rw [List.getElem?_set_ne (Nat.ne_of_lt hrlt)]
          simp
      · intro _
        simp [List.getLast?_concat]

theorem dequeue_regular (q : LinkedQueue T) (a : Nat) (x : T) (l : List (Nat × T))
    (h : Regular q ((a, x) :: l)) :
    ∃ q1, dequeue q = Res.ok (x, q1) ∧ Regular q1 l ∧
      q1.mod_count = incr q.mod_count ∧ q1.mem = q.mem ∧ q1.rear = q.rear ∧
      q1.used = q.used := by
  rw [regular_iff] at h
  obtain ⟨⟨hf, nx, hc, hs⟩, hrear⟩ := h
  refine ⟨{ q with front := nx, mod_count := incr q.mod_count }, ?_, ?_, rfl, rfl, rfl, rfl⟩
  · simp [dequeue, empty, hf, deref_of_cell hc]
  · rw [regular_iff]
    refine ⟨hs, ?_⟩
    intro hne
    have := hrear (by simp)
    show q.rear = _
    rw [this]
    cases l with
    | nil => exact absurd rfl hne
    | cons c l => simp

theorem enqueue_each_regular (vs : List T) :
    ∀ (q : LinkedQueue T) (l : List (Nat × T)), Regular q l →
      ∃ q1 l1, enqueue_each q vs = Res.ok q1 ∧ Regular q1 (l ++ l1) ∧
        l1.map Prod.snd = vs ∧ q1.mod_count = incr^[vs.length] q.mod_count := by
  induction vs with
  | nil =>
    intro q l h
    exact ⟨q, [], rfl, by simpa using h, rfl, rfl⟩
  | cons v vs ih =>
    intro q l h
    obtain ⟨q1, he, hr, hm, _⟩ := enqueue_regular q l v h
    obtain ⟨q2, l2, he2, hr2, hv2, hm2⟩ := ih q1 _ hr
    refine ⟨q2, (q.mem.length, v) :: l2, ?_, ?_, ?_, ?_⟩
    · simp [enqueue_each, he, he2]
    · simpa using hr2
    · simp [hv2]
    · rw [hm2, hm]
      rfl

theorem dequeue_n_regular (l : List (Nat × T)) :
    ∀ (q : LinkedQueue T), Regular q l →
      ∃ q1, dequeue_n l.length q = Res.ok (l.map Prod.snd, q1) ∧ Regular q1 [] ∧
        q1.mod_count = incr^[l.length] q.mod_count := by
  induction l with
  | nil =>
    intro q h
    exact ⟨q, rfl, h, rfl⟩
  | cons c l ih =>
    intro q h
    obtain ⟨a, x⟩ := c
    obtain ⟨q1, hd, hr, hm, _⟩ := dequeue_regular q a x l h
    obtain ⟨q2, hd2, hr2, hm2⟩ := ih q1 hr
    refine ⟨q2, ?_, hr2, ?_⟩
    · simp [dequeue_n, hd, hd2]
    · rw [hm2, hm]
      rfl

theorem empty_of_regular_nil {q : LinkedQueue T} (h : Regular q []) : empty q = true := by
  rw [regular_iff] at h
  have hf : q.front = none := h.1
  simp [empty, hf]

end QueueSteps

section Equality

open LinkedQueue

theorem size_loop_of_seg (mem : List (Option (LN T))) :
    ∀ (l : List (Nat × T)) (f : Nat) (p : Option Nat) (acc : Int),
      Seg mem p l none → l.length ≤ f →
        size_loop mem f p acc = Res.ok (acc + l.length) := by
  intro l
  induction l with
  | nil =>
    intro f p acc h _
    have hp : p = none := h
    subst hp
    cases f <;> simp [size_loop]
  | cons c l ih =>
    intro f p acc h hlen
    obtain ⟨a, x⟩ := c
    obtain ⟨rfl, nx, hc, hs⟩ := h
    cases f with
    | zero => simp at hlen
    | succ f =>
      simp only [size_loop, deref_of_cell hc]
      rw [ih f nx (acc + 1) hs (by simpa using hlen)]
      simp only [List.length_cons, Nat.cast_add, Nat.cast_one]
      congr 1
      ring

theorem size_of_cells {q : LinkedQueue T} {l : List (Nat × T)} (h : cells q = some l) :
    size q = Res.ok (l.length : Int) := by
  have hs := (cells_iff q l).1 h
  have hlen := Seg.length_le l _ hs
  unfold size
  split
  · rw [size_loop_of_seg q.mem l _ _ 0 hs (Nat.le_succ_of_le hlen)]
    simp
  · rename_i hf
    have hf' : q.front = none := by simpa using hf
    rw [hf'] at hs
    cases l with
    | nil => rfl
    | cons c l =>
      obtain ⟨a, x⟩ := c
      cases hs.1

theorem eq_loop_of_seg [DecidableEq T] (mem rmem : List (Option (LN T))) :
    ∀ (l l2 : List (Nat × T)) (f : Nat) (p t : Option Nat),
      Seg mem p l none → Seg rmem t l2 none → l.length = l2.length → l.length ≤ f →
        eq_loop mem rmem f p t = Res.ok (decide (l.map Prod.snd = l2.map Prod.snd)) := by
  intro l
  induction l with
  | nil =>
    intro l2 f p t h h2 hlen _
    have hp : p = none := h
    subst hp
    cases l2 with
    | nil => cases f <;> simp [eq_loop]
    | cons c l2 => simp at hlen
  | cons c l ih =>
    intro l2 f p t h h2 hlen hf
    obtain ⟨a, x⟩ := c
    obtain ⟨rfl, nx, hc, hs⟩ := h
    cases l2 with
    | nil => simp at hlen
    | cons c2 l2 =>
      obtain ⟨b, y⟩ := c2
      obtain ⟨rfl, ny, hc2, hs2⟩ := h2
      cases f with
      | zero => simp at hf
      | succ f =>
        simp only [eq_loop, deref_of_cell hc, deref_of_cell hc2, Res.ok_bind]
        by_cases hxy : y = x
        · subst hxy
          simp only [if_true]
          rw [ih l2 f nx ny hs hs2 (by simpa using hlen) (by simpa using hf)]
          simp
        · simp only [hxy, if_false, Res.pure_eq]
          have : ¬ x = y := fun h => hxy h.symm
          simp [this]

theorem op_eq_of_cells [DecidableEq T] {q rhs : LinkedQueue T} {l l2 : List (Nat × T)}
    (h : cells q = some l) (h2 : cells rhs = some l2) :
    op_eq q rhs = Res.ok (decide (l.map Prod.snd = l2.map Prod.snd)) := by
  have hs := (cells_iff q l).1 h
  have hs2 := (cells_iff rhs l2).1 h2
  unfold op_eq
  rw [size_of_cells h, size_of_cells h2]
  simp only [Res.ok_bind]
  by_cases hlen : l.length = l2.length
  · have : ((l.length : Int) != (l2.length : Int)) = false := by simp [hlen]
    simp only [this, Bool.false_eq_true, if_false]
    exact eq_loop_of_seg q.mem rhs.mem l l2 _ _ _ hs hs2 hlen
      (Nat.le_succ_of_le (Seg.length_le l _ hs))
  · have : ((l.length : Int) != (l2.length : Int)) = true := by
      simp only [bne_iff_ne, ne_eq, Nat.cast_inj]
      exact hlen
    simp only [this, if_true, Res.pure_eq]
    have hne : ¬ l.map Prod.snd = l2.map Prod.snd := by
      intro he
      apply hlen
      simpa using congrArg List.length he
    simp [hne]

theorem op_eq_of_elements [DecidableEq T] {q rhs : LinkedQueue T} {xs ys : List T}
    (h : elements q = some xs) (h2 : elements rhs = some ys) :
    op_eq q rhs = Res.ok (decide (xs = ys)) := by
  simp only [elements, Option.map_eq_some'] at h h2
  obtain ⟨l, hl, rfl⟩ := h
  obtain ⟨l2, hl2, rfl⟩ := h2
  exact op_eq_of_cells hl hl2

theorem op_ne_of_elements [DecidableEq T] {q rhs : LinkedQueue T} {xs ys : List T}
    (h : elements q = some xs) (h2 : elements rhs = some ys) :
    op_ne q rhs = Res.ok (!decide (xs = ys)) := by
  simp [op_ne, op_eq_of_elements h h2]

end Equality

section Copying

open LinkedQueue

theorem assign_loop_spec (rmem : List (Option (LN T))) :
    ∀ (l : List (Nat × T)) (f : Nat) (p : Option Nat) (q : LinkedQueue T)
      (lq : List (Nat × T)),
      Seg rmem p l none → l.length ≤ f → Regular q lq →
        ∃ q1 l1, assign_loop rmem f p q = Res.ok q1 ∧ Regular q1 (lq ++ l1) ∧
          l1.map Prod.snd = l.map Prod.snd ∧
          q1.mod_count = incr^[l.length] q.mod_count := by
  intro l
  induction l with
  | nil =>
    intro f p q lq h _ hq
    have hp : p = none := h
    subst hp
    refine ⟨q, [], ?_, by simpa using hq, rfl, rfl⟩
    cases f <;> simp [assign_loop]
  | cons c l ih =>
    intro f p q lq h hlen hq
    obtain ⟨a, x⟩ := c
    obtain ⟨rfl, nx, hc, hs⟩ := h
    cases f with
    | zero => simp at hlen
    | succ f =>
      obtain ⟨q1, he, hr, hm, _⟩ := enqueue_regular q lq x hq
      obtain ⟨q2, l2, hl2, hr2, hv2, hm2⟩ := ih f nx q1 _ hs (by simpa using hlen) hr
      refine ⟨q2, (q.mem.length, x) :: l2, ?_, by simpa using hr2, by simp [hv2], ?_⟩
      · simp [assign_loop, deref_of_cell hc, he, hl2]
      · rw [hm2, hm]
        rfl

theorem enqueue_all_loop_spec (addr : Nat) (src : LinkedQueue T) :
    ∀ (l : List (Nat × T)) (f : Nat) (b : Iterator) (q : LinkedQueue T)
      (lq : List (Nat × T)) (count : Int),
      Seg src.mem b.current l none → l.length ≤ f →
      b.expected_mod_count = src.mod_count → b.ref_queue = addr → b.can_erase = true →
      Regular q lq →
        ∃ q1 l1, enqueue_all_loop src (end_ addr src) f b q count =
            Res.ok (count + l.length, q1) ∧ Regular q1 (lq ++ l1) ∧
          l1.map Prod.snd = l.map Prod.snd ∧
          q1.mod_count = incr^[l.length] q.mod_count := by
  intro l
  induction l with
  | nil =>
    intro f b q lq count h _ hm hr _ hq
    have hp : b.current = none := h
    refine ⟨q, [], ?_, by simpa using hq, rfl, rfl⟩
    rw [enqueue_all_loop.eq_def]
    simp [Iterator.op_ne, hm, hr, end_, hp]
  | cons c l ih =>
    intro f b q lq count h hlen hm hr hce hq
    obtain ⟨a, x⟩ := c
    obtain ⟨bp, bc, br, be, bce⟩ := b
    simp only at h hm hr hce
    subst hm hr hce
    obtain ⟨rfl, nx, hc, hs⟩ := h
    cases f with
    | zero => simp at hlen
    | succ f =>
      obtain ⟨q1, he, hr1, hm1, _⟩ := enqueue_regular q lq x hq
      obtain ⟨q2, l2, hl2, hr2, hv2, hm2⟩ :=
        ih f ⟨some a, nx, br, src.mod_count, true⟩ q1 _ (count + 1) hs
          (by simpa using hlen) rfl rfl rfl hr1
      refine ⟨q2, (q.mem.length, x) :: l2, ?_, by simpa using hr2, by simp [hv2], ?_⟩
      · rw [enqueue_all_loop]
        simp only [Iterator.op_ne, end_, Iterator.star, Iterator.pre_inc,
          Iterator.advance, deref_of_cell hc, he, bne_self_eq_false, Bool.false_eq_true,
          if_false, Res.pure_eq, Res.ok_bind, bne_iff_ne, ne_eq, not_false_eq_true, if_true,
          Bool.not_true, Bool.or_self, reduceCtorEq, beq_iff_eq, Bool.false_or]
        simp only [end_] at hl2
        rw [hl2]
        simp only [List.length_cons, Nat.cast_add, Nat.cast_one]
        congr 2
        ring
      · rw [hm2, hm1]
        rfl

theorem copy_regular (addr : Nat) (src : LinkedQueue T) (l : List (Nat × T))
    (h : cells src = some l) :
    ∃ c lc, copy addr src = Res.ok c ∧ Regular c lc ∧ lc.map Prod.snd = l.map Prod.snd ∧
      c.mod_count = incr^[l.length] 0 := by
  have hs := (cells_iff src l).1 h
  obtain ⟨c, lc, hrun, hr, hv, hm⟩ :=
    enqueue_all_loop_spec addr src l (src.mem.length + 1) (begin addr src) init [] 0 hs
      (Nat.le_succ_of_le (Seg.length_le l _ hs)) rfl rfl rfl regular_init
  refine ⟨c, lc, ?_, by simpa using hr, hv, ?_⟩
  · simp [copy, enqueue_all_queue, hrun]
  · rw [hm]
    rfl

theorem assign_regular (a_addr b_addr : Nat) (a b : LinkedQueue T) (l : List (Nat × T))
    (hne : a_addr ≠ b_addr) (h : cells b = some l) :
    ∃ a1 l1, assign a_addr a b_addr b = Res.ok a1 ∧ Regular a1 l1 ∧
      l1.map Prod.snd = l.map Prod.snd ∧
      a1.mod_count = incr (incr^[l.length] (incr a.mod_count)) := by
  have hs := (cells_iff b l).1 h
  have hclear : Regular (clear a) [] := by
    rw [regular_iff]
    exact ⟨rfl, fun h => absurd rfl h⟩
  obtain ⟨a1, l1, hrun, hr, hv, hm⟩ :=
    assign_loop_spec b.mem l (b.mem.length + 1) b.front (clear a) [] hs
      (Nat.le_succ_of_le (Seg.length_le l _ hs)) hclear
  refine ⟨{ a1 with mod_count := incr a1.mod_count }, l1, ?_, ?_, hv, ?_⟩
  · simp [assign, hne, hrun]
  · rw [regular_iff] at hr ⊢
    simpa using hr
  · show incr a1.mod_count = _
    rw [hm]
    rfl

end Copying

section Erasing

open LinkedQueue

theorem seg_head {mem : List (Option (LN T))} {p : Option Nat} {l : List (Nat × T)}
    (h : Seg mem p l none) : p = l[0]?.map Prod.fst := by
  cases l with
  | nil => exact h
  | cons c l =>
    obtain ⟨a, x⟩ := c
    simpa using h.1

theorem split_at_succ {α : Type} (l : List α) (j : Nat) (h : j + 1 < l.length) :
    ∃ l1 p c l2, l = l1 ++ p :: c :: l2 ∧ l1.length = j := by
  refine ⟨l.take j, l[j], l[j + 1], l.drop (j + 2), ?_, ?_⟩
  · have h1 : l.drop j = l[j] :: l.drop (j + 1) := List.drop_eq_getElem_cons (by omega)
    have h2 : l.drop (j + 1) = l[j + 1] :: l.drop (j + 2) := List.drop_eq_getElem_cons h
    rw [← h2, ← h1, List.take_append_drop]
  · rw [List.length_take]
    omega

theorem erase_head (q : LinkedQueue T) (a : Nat) (x : T) (l : List (Nat × T))
    (it : Iterator) (hq : Regular q ((a, x) :: l))
    (hm : it.expected_mod_count = q.mod_count) (hce : it.can_erase = true)
    (hcur : it.current = some a) (hprev : it.prev = none) :
    ∃ q1 it1, Iterator.erase q it = Res.ok (x, q1, it1) ∧ Regular q1 l ∧
      it1.current = l[0]?.map Prod.fst ∧ it1.prev = none ∧ it1.can_erase = false ∧
      it1.expected_mod_count = q1.mod_count ∧ it1.ref_queue = it.ref_queue ∧
      q1.mod_count = q.mod_count ∧ q1.used = q.used ∧
      (l = [] → q1.front = none ∧ q1.rear = none) := by
  rw [regular_iff] at hq
  obtain ⟨hseg, hrear⟩ := hq
  have hnd := Seg.nodup _ _ hseg
  obtain ⟨hf, nx, hc, hs⟩ := hseg
  obtain ⟨ip, ic, ir, ie, ice⟩ := it
  simp only at hm hce hcur hprev
  subst hm hce hcur hprev
  have hal : a ∉ l.map Prod.fst := by
    simp only [List.map_cons, List.nodup_cons] at hnd
    exact hnd.1
  have hs' : Seg (q.mem.set a none) nx l none := Seg.set_frame a none l nx none hs hal
  have hnx := seg_head hs
  cases l with
  | nil =>
    have hnx' : nx = none := hs
    subst hnx'
    refine ⟨{ q with front := none, mem := q.mem.set a none, rear := none },
      ⟨none, none, ir, q.mod_count, false⟩, ?_, ?_, rfl, rfl, rfl, rfl, rfl, rfl, rfl,
      fun _ => ⟨rfl, rfl⟩⟩
    · simp [Iterator.erase, deref_of_cell hc, hf, delete_node]
    · rw [regular_iff]
      exact ⟨rfl, fun h => absurd rfl h⟩
  | cons c l =>
    obtain ⟨b, y⟩ := c
    have hnx' : nx = some b := by simpa using hnx
    subst hnx'
    refine ⟨{ q with front := some b, mem := q.mem.set a none },
      ⟨none, some b, ir, q.mod_count, false⟩, ?_, ?_, by simp, rfl, rfl, rfl, rfl, rfl, rfl,
      fun h => by cases h⟩
    · simp [Iterator.erase, deref_of_cell hc, hf, delete_node]
    · rw [regular_iff]
      refine ⟨hs', fun _ => ?_⟩
      have := hrear (by simp)
      show q.rear = _
      rw [this]
      simp

theorem erase_inner (q : LinkedQueue T) (l1 : List (Nat × T)) (pa : Nat) (px : T)
    (ca : Nat) (cx : T) (l2 : List (Nat × T)) (it : Iterator)
    (hq : Regular q (l1 ++ (pa, px) :: (ca, cx) :: l2))
    (hm : it.expected_mod_count = q.mod_count) (hce : it.can_erase = true)
    (hcur : it.current = some ca) (hprev : it.prev = some pa) :
    ∃ q1 it1, Iterator.erase q it = Res.ok (cx, q1, it1) ∧
      Regular q1 (l1 ++ (pa, px) :: l2) ∧
      it1.current = l2[0]?.map Prod.fst ∧ it1.prev = some pa ∧ it1.can_erase = false ∧
      it1.expected_mod_count = q1.mod_count ∧ it1.ref_queue = it.ref_queue ∧
      q1.mod_count = q.mod_count ∧ q1.used = q.used := by
  rw [regular_iff] at hq
  obtain ⟨hseg, hrear⟩ := hq
  have hnd := Seg.nodup _ _ hseg
  have hfront := seg_head hseg
  obtain ⟨m, h1, h2⟩ := (Seg.append l1 _ q.front none).1 hseg
  obtain ⟨rfl, m2, hcp, h3⟩ := h2
  obtain ⟨rfl, nx, hcc, h4⟩ := h3
  obtain ⟨ip, ic, ir, ie, ice⟩ := it
  simp only at hm hce hcur hprev
  subst hm hce hcur hprev
  simp only [List.map_append, List.map_cons] at hnd
  obtain ⟨hnd1, hnd2, hdisj⟩ := List.nodup_append.1 hnd
  simp only [List.nodup_cons, List.mem_cons, not_or] at hnd2
  obtain ⟨⟨hpc, hpl2⟩, hcl2, _⟩ := hnd2
  have hpl1 : pa ∉ l1.map Prod.fst := fun h => hdisj h (by simp)
  have hcl1 : ca ∉ l1.map Prod.fst := fun h => hdisj h (by simp)
  have hfc : q.front ≠ some ca := by
    rw [hfront]
    cases l1 with
    | nil =>
      simp only [List.nil_append, List.getElem?_cons_zero, Option.map_some']
      intro h
      exact hpc (Option.some.inj h)
    | cons c l1 =>
      simp only [List.cons_append, List.getElem?_cons_zero, Option.map_some']
      intro h
      apply hcl1
      rw [← Option.some.inj h]
      simp
  have hplt : pa < q.mem.length := by
    by_contra hge
    rw [List.getElem?_eq_none (Nat.le_of_not_lt hge)] at hcp
    cases hcp
  have hseg1 : Seg ((q.mem.set pa (some ⟨px, nx⟩)).set ca none) q.front l1 (some pa) :=
    Seg.set_frame ca none l1 _ _ (Seg.set_frame pa _ l1 _ _ h1 hpl1) hcl1
  have hseg2 : Seg ((q.mem.set pa (some ⟨px, nx⟩)).set ca none) nx l2 none :=
    Seg.set_frame ca none l2 _ _ (Seg.set_frame pa _ l2 _ _ h4 hpl2) hcl2
  have hcell : ((q.mem.set pa (some (LN.mk px nx))).set ca none)[pa]? =
      some (some ⟨px, nx⟩) := by
    rw [List.getElem?_set_ne (fun h => hpc h.symm)]
    exact List.getElem?_set_self hplt
  have hsegn : Seg ((q.mem.set pa (some ⟨px, nx⟩)).set ca none) q.front
      (l1 ++ (pa, px) :: l2) none :=
    (Seg.append l1 _ q.front none).2 ⟨some pa, hseg1, rfl, nx, hcell, hseg2⟩
  have hnx := seg_head h4
  have hcf : (some ca == q.front) = false := by
    simp only [beq_eq_false_iff_ne, ne_eq]
    exact fun h => hfc h.symm
  cases l2 with
  | nil =>
    have hnx' : nx = none := h4
    subst hnx'
    refine ⟨{ q with mem := (q.mem.set pa (some ⟨px, none⟩)).set ca none, rear := some pa },
      ⟨some pa, none, ir, q.mod_count, false⟩, ?_, ?_, rfl, rfl, rfl, rfl, rfl, rfl, rfl⟩
    · simp [Iterator.erase, deref_of_cell hcc, hcf, set_next_of_cell _ hcp, delete_node]
    · rw [regular_iff]
      refine ⟨hsegn, fun _ => ?_⟩
      simp [List.getLast?_concat]
  | cons c l2 =>
    obtain ⟨b, y⟩ := c
    have hnx' : nx = some b := by simpa using hnx
    subst hnx'
    refine ⟨{ q with mem := (q.mem.set pa (some ⟨px, some b⟩)).set ca none },
      ⟨some pa, some b, ir, q.mod_count, false⟩, ?_, ?_, by simp, rfl, rfl, rfl, rfl, rfl,
      rfl⟩
    · simp [Iterator.erase, deref_of_cell hcc, hcf, set_next_of_cell _ hcp, delete_node]
    · rw [regular_iff]
      refine ⟨hsegn, fun _ => ?_⟩
      have := hrear (by simp)
      show q.rear = _
      rw [this]
      simp [List.getLast?_append]

theorem map_snd_eraseIdx {α β : Type} (l : List (α × β)) :
    ∀ i, (l.eraseIdx i).map Prod.snd = (l.map Prod.snd).eraseIdx i := by
  induction l with
  | nil => intro i; rfl
  | cons c l ih =>
    intro i
    cases i with
    | zero => rfl
    | succ i => simp [ih i]

theorem seg_cell {mem : List (Option (LN T))} :
    ∀ (l : List (Nat × T)) (i : Nat) (p : Option Nat) (a : Nat) (x : T),
      Seg mem p l none → l[i]? = some (a, x) →
        mem[a]? = some (some ⟨x, l[i + 1]?.map Prod.fst⟩) := by
  intro l
  induction l with
  | nil => intro i p a x _ h; simp at h
  | cons c l ih =>
    intro i p a x hs h
    obtain ⟨b, y⟩ := c
    obtain ⟨_, nx, hc, hs'⟩ := hs
    cases i with
    | zero =>
      simp only [List.getElem?_cons_zero, Option.some.injEq, Prod.mk.injEq] at h
      obtain ⟨rfl, rfl⟩ := h
      rw [hc, seg_head hs']
      simp
    | succ i =>
      simp only [List.getElem?_cons_succ] at h ⊢
      exact ih i nx a x hs' h

theorem erase_tracks (q : LinkedQueue T) (l : List (Nat × T)) (it : Iterator) (i : Nat)
    (hq : Regular q l) (ht : Iterator.Tracks q l it i) (hce : it.can_erase = true)
    (hi : i < l.length) :
    ∃ a x q1 it1, l[i]? = some (a, x) ∧ it.current = some a ∧
      Iterator.erase q it = Res.ok (x, q1, it1) ∧
      Regular q1 (l.eraseIdx i) ∧ Iterator.Tracks q1 (l.eraseIdx i) it1 i ∧
      it1.can_erase = false ∧ it1.current = l[i + 1]?.map Prod.fst ∧ it1.prev = it.prev ∧
      it1.ref_queue = it.ref_queue ∧ q1.mod_count = q.mod_count ∧ q1.used = q.used ∧
      (l.length = 1 → q1.front = none ∧ q1.rear = none) := by
  obtain ⟨hm, _, hcur, hprev⟩ := ht
  cases i with
  | zero =>
    cases l with
    | nil => simp at hi
    | cons c l =>
      obtain ⟨a, x⟩ := c
      simp only [List.getElem?_cons_zero, Option.map_some', if_true] at hcur hprev
      obtain ⟨q1, it1, he, hr, hc1, hp1, hce1, hm1, hrq, hmq, hu, hsole⟩ :=
        erase_head q a x l it hq hm hce hcur hprev
      refine ⟨a, x, q1, it1, by simp, hcur, he, hr, ⟨hm1, Nat.zero_le _, hc1, by simpa using hp1⟩,
        hce1, by simpa using hc1, by rw [hp1, hprev], hrq, hmq, hu, ?_⟩
      intro hlen
      have : l = [] := by
        cases l with
        | nil => rfl
        | cons d l => simp at hlen
      exact hsole this
  | succ j =>
    obtain ⟨l1, ⟨pa, px⟩, ⟨ca, cx⟩, l2, rfl, rfl⟩ := split_at_succ l j hi
    have key : ∀ (k : Nat) (l' : List (Nat × T)), (l1 ++ l')[l1.length + k]? = l'[k]? := by
      intro k l'
      rw [List.getElem?_append_right (Nat.le_add_right _ _)]
      congr 1
      omega
    have hcur' : it.current = some ca := by
      rw [hcur, key 1]
      simp
    have hprev' : it.prev = some pa := by
      rw [hprev]
      simp only [Nat.add_one_ne_zero, if_false, Nat.add_sub_cancel]
      have := key 0 ((pa, px) :: (ca, cx) :: l2)
      simp only [Nat.add_zero] at this
      rw [this]
      simp
    obtain ⟨q1, it1, he, hr, hc1, hp1, hce1, hm1, hrq, hmq, hu⟩ :=
      erase_inner q l1 pa px ca cx l2 it hq hm hce hcur' hprev'
    have hers : (l1 ++ (pa, px) :: (ca, cx) :: l2).eraseIdx (l1.length + 1) =
        l1 ++ (pa, px) :: l2 := by
      rw [List.eraseIdx_append_of_length_le (Nat.le_add_right _ _)]
      simp
    rw [hers]
    refine ⟨ca, cx, q1, it1, ?_, hcur', he, hr, ⟨hm1, ?_, ?_, ?_⟩, hce1, ?_, ?_, hrq, hmq, hu,
      ?_⟩
    · rw [key 1]
      simp
    · simp
    · rw [hc1, key 1]
      simp
    · rw [hp1]
      simp only [Nat.add_one_ne_zero, if_false, Nat.add_sub_cancel]
      have := key 0 ((pa, px) :: l2)
      simp only [Nat.add_zero] at this
      rw [this]
      simp
    · rw [hc1]
      have := key 2 ((pa, px) :: (ca, cx) :: l2)
      rw [Nat.add_assoc, this]
      simp
    · rw [hp1, hprev']
    · intro hlen
      simp at hlen
      omega

theorem begin_tracks (addr : Nat) (q : LinkedQueue T) (l : List (Nat × T))
    (hq : Regular q l) : Iterator.Tracks q l (begin addr q) 0 := by
  rw [regular_iff] at hq
  exact ⟨rfl, Nat.zero_le _, seg_head hq.1, rfl⟩

theorem advance_tracks (q : LinkedQueue T) (l : List (Nat × T)) (it it1 : Iterator)
    (i : Nat) (hq : Regular q l) (ht : Iterator.Tracks q l it i)
    (h : Iterator.advance q it = Res.ok it1) :
    ∃ i1, Iterator.Tracks q l it1 i1 ∧ it1.ref_queue = it.ref_queue := by
  rw [regular_iff] at hq
  obtain ⟨hm, hi, hcur, hprev⟩ := ht
  unfold Iterator.advance at h
  by_cases hce : it.can_erase = true
  · simp only [hce, if_true] at h
    cases hl : l[i]? with
    | none =>
      rw [hcur, hl] at h
      simp [deref] at h
    | some c =>
      obtain ⟨a, x⟩ := c
      have hcell := seg_cell l i _ a x hq.1 hl
      rw [hcur, hl] at h
      simp only [Option.map_some', deref_of_cell hcell, Res.ok_bind, Res.pure_eq,
        Res.ok.injEq] at h
      subst h
      have hlt : i < l.length := by
        by_contra hge
        rw [List.getElem?_eq_none (Nat.le_of_not_lt hge)] at hl
        cases hl
      refine ⟨i + 1, ⟨hm, hlt, rfl, ?_⟩, rfl⟩
      simp [hl]
  · simp only [hce, Bool.false_eq_true, if_false, Res.pure_eq, Res.ok.injEq] at h
    subst h
    exact ⟨i, ⟨hm, hi, hcur, hprev⟩, rfl⟩

theorem step_tracks (q q1 : LinkedQueue T) (l : List (Nat × T)) (it it1 : Iterator)
    (i : Nat) (op : Iterator.IterOp) (hq : Regular q l) (ht : Iterator.Tracks q l it i)
    (h : Iterator.step q it op = Res.ok (q1, it1)) :
    ∃ l1 i1, Regular q1 l1 ∧ Iterator.Tracks q1 l1 it1 i1 ∧
      it1.ref_queue = it.ref_queue := by
  have hm := ht.1
  cases op with
  | pre_inc =>
    simp only [Iterator.step, Iterator.pre_inc, hm, bne_self_eq_false, Bool.false_eq_true,
      if_false] at h
    by_cases hc : it.current = none
    · simp only [hc, beq_self_eq_true, if_true, Res.pure_eq, Res.ok_bind, Res.ok.injEq,
        Prod.mk.injEq] at h
      obtain ⟨rfl, rfl⟩ := h
      exact ⟨l, i, hq, ht, rfl⟩
    · have hb : (it.current == none) = false := by simpa using hc
      simp only [hb, Bool.false_eq_true, if_false] at h
      cases ha : Iterator.advance q it with
      | fail f => simp [ha] at h
      | ok it2 =>
        simp only [ha, Res.ok_bind, Res.pure_eq, Res.ok.injEq, Prod.mk.injEq] at h
        obtain ⟨rfl, rfl⟩ := h
        obtain ⟨i1, ht1, hr1⟩ := advance_tracks q l it it2 i hq ht ha
        exact ⟨l, i1, hq, ht1, hr1⟩
  | post_inc =>
    simp only [Iterator.step, Iterator.post_inc, hm, bne_self_eq_false, Bool.false_eq_true,
      if_false] at h
    cases hd : deref q.mem q.rear with
    | fail f => simp [hd] at h
    | ok r =>
      simp only [hd, Res.ok_bind] at h
      by_cases hc : (it.current == r.next) = true
      · simp only [hc, if_true, Res.pure_eq, Res.ok_bind, Res.ok.injEq, Prod.mk.injEq] at h
        obtain ⟨rfl, rfl⟩ := h
        exact ⟨l, i, hq, ht, rfl⟩
      · simp only [hc, Bool.false_eq_true, if_false] at h
        cases ha : Iterator.advance q it with
        | fail f => simp [ha] at h
        | ok it2 =>
          simp only [ha, Res.ok_bind, Res.pure_eq, Res.ok.injEq, Prod.mk.injEq] at h
          obtain ⟨rfl, rfl⟩ := h
          obtain ⟨i1, ht1, hr1⟩ := advance_tracks q l it it2 i hq ht ha
          exact ⟨l, i1, hq, ht1, hr1⟩
  | erase =>
    simp only [Iterator.step] at h
    by_cases hok : it.can_erase = true ∧ i < l.length
    · obtain ⟨a, x, q2, it2, _, _, he, hr, ht2, _, _, _, hrq, _⟩ :=
        erase_tracks q l it i hq ht hok.1 hok.2
      simp only [he, Res.ok_bind, Res.pure_eq, Res.ok.injEq, Prod.mk.injEq] at h
      obtain ⟨rfl, rfl⟩ := h
      exact ⟨_, i, hr, ht2, hrq⟩
    · exfalso
      have hfail : Iterator.erase q it = raise .CannotEraseError := by
        unfold Iterator.erase
        simp only [hm, bne_self_eq_false, Bool.false_eq_true, if_false]
        by_cases hce : it.can_erase = true
        · have hil : i = l.length := by
            have := ht.2.1
            have : ¬ i < l.length := fun h => hok ⟨hce, h⟩
            omega
          have hcn : it.current = none := by
            rw [ht.2.2.1, hil]
            simp
          simp [hce, hcn]
        · simp [hce]
      simp [hfail, raise] at h

theorem run_tracks (ops : List Iterator.IterOp) :
    ∀ (q q1 : LinkedQueue T) (l : List (Nat × T)) (it it1 : Iterator) (i : Nat),
      Regular q l → Iterator.Tracks q l it i → Iterator.run q it ops = Res.ok (q1, it1) →
        ∃ l1 i1, Regular q1 l1 ∧ Iterator.Tracks q1 l1 it1 i1 ∧
          it1.ref_queue = it.ref_queue := by
  induction ops with
  | nil =>
    intro q q1 l it it1 i hq ht h
    simp only [Iterator.run, Res.pure_eq, Res.ok.injEq, Prod.mk.injEq] at h
    obtain ⟨rfl, rfl⟩ := h
    exact ⟨l, i, hq, ht, rfl⟩
  | cons op ops ih =>
    intro q q1 l it it1 i hq ht h
    simp only [Iterator.run] at h
    cases hs : Iterator.step q it op with
    | fail f => simp [hs] at h
    | ok r =>
      obtain ⟨q2, it2⟩ := r
      simp only [hs, Res.ok_bind] at h
      obtain ⟨l2, i2, hq2, ht2, hr2⟩ := step_tracks q q2 l it it2 i op hq ht hs
      obtain ⟨l1, i1, hq1, ht1, hr1⟩ := ih q2 q1 l2 it2 it1 i2 hq2 ht2 h
      exact ⟨l1, i1, hq1, ht1, hr1.trans hr2⟩

theorem erase_ok_inv (q : LinkedQueue T) (l : List (Nat × T)) (it : Iterator) (i : Nat)
    (r : T × LinkedQueue T × Iterator) (ht : Iterator.Tracks q l it i)
    (h : Iterator.erase q it = Res.ok r) : it.can_erase = true ∧ i < l.length := by
  by_contra hok
  have hfail : Iterator.erase q it = raise .CannotEraseError := by
    unfold Iterator.erase
    simp only [ht.1, bne_self_eq_false, Bool.false_eq_true, if_false]
    by_cases hce : it.can_erase = true
    · have hil : i = l.length := by
        have := ht.2.1
        have : ¬ i < l.length := fun h => hok ⟨hce, h⟩
        omega
      have hcn : it.current = none := by
        rw [ht.2.2.1, hil]
        simp
      simp [hce, hcn]
    · simp [hce]
  simp [hfail, raise] at h

theorem mutate_mod_count (addr : Nat) (q q1 : LinkedQueue T) (m : Mutation T)
    (hd : m.direct = true) (h : Mutation.mutate addr q m = Res.ok q1) :
    q1.mod_count = incr q.mod_count := by
  cases m with
  | enqueue v =>
    simp only [Mutation.mutate, enqueue] at h
    split at h
    · simp only [Res.pure_eq, Res.ok_bind, Res.ok.injEq] at h
      subst h
      rfl
    · cases h1 : set_next (q.mem ++ [some ⟨v, none⟩]) q.rear (some q.mem.length) with
      | fail f => simp [h1] at h
      | ok mem2 =>
        simp only [h1, Res.ok_bind] at h
        cases h2 : deref mem2 q.rear with
        | fail f => simp [h2] at h
        | ok r =>
          simp only [h2, Res.ok_bind, Res.pure_eq, Res.ok.injEq] at h
          subst h
          rfl
  | dequeue =>
    simp only [Mutation.mutate, dequeue] at h
    split at h
    · simp [raise] at h
    · cases h1 : deref q.mem q.front with
      | fail f => simp [h1] at h
      | ok n =>
        simp only [h1, Res.ok_bind, Res.pure_eq, Res.ok.injEq] at h
        subst h
        rfl
  | clear =>
    simp only [Mutation.mutate, Res.pure_eq, Res.ok.injEq] at h
    subst h
    rfl
  | assign ra rhs => simp [Mutation.direct] at hd
  | erase it => simp [Mutation.direct] at hd

theorem mutate_all_mod_count (addr : Nat) (ms : List (Mutation T)) :
    ∀ (q q1 : LinkedQueue T), (∀ m ∈ ms, m.direct = true) →
      Mutation.mutate_all addr q ms = Res.ok q1 →
        q1.mod_count = incr^[ms.length] q.mod_count := by
  induction ms with
  | nil =>
    intro q q1 _ h
    simp only [Mutation.mutate_all, Res.pure_eq, Res.ok.injEq] at h
    subst h
    rfl
  | cons m ms ih =>
    intro q q1 hd h
    simp only [Mutation.mutate_all] at h
    cases h1 : Mutation.mutate addr q m with
    | fail f => simp [h1] at h
    | ok q2 =>
      simp only [h1, Res.ok_bind] at h
      rw [ih q2 q1 (fun m' hm' => hd m' (List.mem_cons_of_mem _ hm')) h,
        mutate_mod_count addr q q2 m (hd m (List.mem_cons_self _ _)) h1]
      rfl

theorem mutate_all_clear (addr : Nat) (k : Nat) :
    ∀ q : LinkedQueue T,
      Mutation.mutate_all addr q (List.replicate (k + 1) Mutation.clear) =
        Res.ok { q with front := none, rear := none, mod_count := incr^[k + 1] q.mod_count } := by
  induction k with
  | zero =>
    intro q
    rfl
  | succ k ih =>
    intro q
    rw [List.replicate_succ, Mutation.mutate_all]
    simp only [Mutation.mutate, Res.pure_eq, Res.ok_bind]
    rw [ih (clear q)]
    rfl

theorem mutate_all_clear_pos (addr : Nat) (k : Nat) (hk : 0 < k) (q : LinkedQueue T) :
    Mutation.mutate_all addr q (List.replicate k Mutation.clear) =
      Res.ok { q with front := none, rear := none, mod_count := wrap32 (q.mod_count + k) } := by
  obtain ⟨j, rfl⟩ : ∃ j, k = j + 1 := ⟨k - 1, by omega⟩
  rw [mutate_all_clear, iterate_incr_pos (j + 1) q.mod_count hk]

theorem mutate_alters (addr : Nat) (q q1 : LinkedQueue T) (l : List (Nat × T))
    (m : Mutation T) (hq : Regular q l) (ha : Mutation.alters addr q l m)
    (h : Mutation.mutate addr q m = Res.ok q1) :
    ∃ l1, Regular q1 l1 ∧ l1.map Prod.snd ≠ l.map Prod.snd := by
  have hlen : ∀ l1 : List (Nat × T), l1.length ≠ l.length →
      l1.map Prod.snd ≠ l.map Prod.snd := by
    intro l1 hne he
    apply hne
    simpa using congrArg List.length he
  cases m with
  | enqueue v =>
    obtain ⟨q2, he, hr, _⟩ := enqueue_regular q l v hq
    simp only [Mutation.mutate, he, Res.ok_bind, Res.pure_eq, Res.ok.injEq] at h
    subst h
    exact ⟨_, hr, hlen _ (by simp)⟩
  | dequeue =>
    cases l with
    | nil =>
      have := empty_of_regular_nil hq
      simp [Mutation.mutate, dequeue, this, raise] at h
    | cons c l =>
      obtain ⟨a, x⟩ := c
      obtain ⟨q2, he, hr, _⟩ := dequeue_regular q a x l hq
      simp only [Mutation.mutate, he, Res.ok_bind, Res.pure_eq, Res.ok.injEq] at h
      subst h
      exact ⟨l, hr, hlen _ (by simp)⟩
  | clear =>
    simp only [Mutation.mutate, Res.pure_eq, Res.ok.injEq] at h
    subst h
    refine ⟨[], ?_, ?_⟩
    · rw [regular_iff]
      exact ⟨rfl, fun h => absurd rfl h⟩
    · intro he
      apply (ha : l ≠ [])
      simpa using he.symm
  | assign ra rhs =>
    obtain ⟨hne, zs, hz, hzs⟩ := ha
    simp only [elements, Option.map_eq_some'] at hz
    obtain ⟨lz, hlz, rfl⟩ := hz
    obtain ⟨q2, l2, he, hr, hv, _⟩ := assign_regular addr ra q rhs lz hne hlz
    simp only [Mutation.mutate, he, Res.ok.injEq] at h
    subst h
    exact ⟨l2, hr, by rw [hv]; exact hzs⟩
  | erase it =>
    obtain ⟨i, ht⟩ := ha
    simp only [Mutation.mutate] at h
    cases he : Iterator.erase q it with
    | fail f => simp [he] at h
    | ok r =>
      obtain ⟨hce, hi⟩ := erase_ok_inv q l it i r ht he
      obtain ⟨a, x, q2, it2, _, _, he2, hr, _⟩ := erase_tracks q l it i hq ht hce hi
      rw [he2] at he
      cases he
      simp only [he2, Res.ok_bind, Res.pure_eq, Res.ok.injEq] at h
      subst h
      refine ⟨_, hr, hlen _ ?_⟩
      rw [List.length_eraseIdx_of_lt hi]
      omega

end Erasing

section Advancing

open LinkedQueue

theorem rear_cell (q : LinkedQueue T) (l : List (Nat × T)) (hq : Regular q l)
    (hne : l ≠ []) : ∃ r x, q.rear = some r ∧ q.mem[r]? = some (some ⟨x, none⟩) := by
  rw [regular_iff] at hq
  obtain ⟨hseg, hrear⟩ := hq
  rcases List.eq_nil_or_concat l with rfl | ⟨l0, ⟨r, x⟩, rfl⟩
  · exact absurd rfl hne
  · rw [List.concat_eq_append] at hseg hrear
    refine ⟨r, x, ?_, ?_⟩
    · rw [hrear (by simp), List.getLast?_concat]
      rfl
    · obtain ⟨m, _, h1⟩ := (Seg.append l0 [(r, x)] q.front none).1 hseg
      obtain ⟨_, nx, hc, hnx⟩ := h1
      have hnx' : nx = none := hnx
      subst hnx'
      exact hc

theorem advance_at (q : LinkedQueue T) (l : List (Nat × T)) (it : Iterator) (i a : Nat)
    (x : T) (hq : Regular q l) (hl : l[i]? = some (a, x)) (hcur : it.current = some a) :
    Iterator.advance q it = Res.ok (Iterator.advance_spec it (l[i + 1]?.map Prod.fst)) := by
  rw [regular_iff] at hq
  have hcell := seg_cell l i _ a x hq.1 hl
  unfold Iterator.advance Iterator.advance_spec
  by_cases hce : it.can_erase = true
  · simp [hce, hcur, deref_of_cell hcell]
  · simp [hce]

theorem pre_inc_at (q : LinkedQueue T) (l : List (Nat × T)) (it : Iterator) (i a : Nat)
    (x : T) (hq : Regular q l) (hl : l[i]? = some (a, x)) (hcur : it.current = some a)
    (hfresh : it.expected_mod_count = q.mod_count) :
    Iterator.pre_inc q it =
      Res.ok (Iterator.advance_spec it (l[i + 1]?.map Prod.fst)) := by
  unfold Iterator.pre_inc
  simp only [hfresh, bne_self_eq_false, Bool.false_eq_true, if_false]
  rw [advance_at q l it i a x hq hl hcur]
  simp [hcur]

theorem post_inc_at (q : LinkedQueue T) (l : List (Nat × T)) (it : Iterator) (i a : Nat)
    (x : T) (hq : Regular q l) (hl : l[i]? = some (a, x)) (hcur : it.current = some a)
    (hfresh : it.expected_mod_count = q.mod_count) :
    Iterator.post_inc q it =
      Res.ok (it, Iterator.advance_spec it (l[i + 1]?.map Prod.fst)) := by
  have hne : l ≠ [] := by
    intro h
    subst h
    simp at hl
  obtain ⟨r, y, hr, hc⟩ := rear_cell q l hq hne
  unfold Iterator.post_inc
  simp only [hfresh, bne_self_eq_false, Bool.false_eq_true, if_false]
  rw [hr, deref_of_cell hc, advance_at q l it i a x hq hl hcur]
  simp [hcur]

theorem tracks_current_none (q : LinkedQueue T) (l : List (Nat × T)) (it : Iterator)
    (i : Nat) (ht : Iterator.Tracks q l it i) : it.current = none ↔ i = l.length := by
  obtain ⟨_, hi, hcur, _⟩ := ht
  rw [hcur]
  constructor
  · intro h
    by_contra hne
    have hlt : i < l.length := by omega
    rw [List.getElem?_eq_getElem hlt] at h
    cases h
  · intro h
    rw [List.getElem?_eq_none (by omega)]
    rfl

theorem op_ne_end (addr : Nat) (q : LinkedQueue T) (l : List (Nat × T)) (it : Iterator)
    (i : Nat) (ht : Iterator.Tracks q l it i) (hr : it.ref_queue = addr) :
    Iterator.op_ne q it (end_ addr q) = Res.ok (decide (i < l.length)) := by
  have hn := tracks_current_none q l it i ht
  unfold Iterator.op_ne
  simp only [ht.1, bne_self_eq_false, Bool.false_eq_true, if_false, end_, hr, Res.pure_eq]
  congr 1
  by_cases hi : i < l.length
  · have : it.current ≠ none := fun h => by
      have := hn.1 h
      omega
    simp [hi, this]
  · have : it.current = none := hn.2 (by have := ht.2.1; omega)
    simp [hi, this]

theorem star_at (q : LinkedQueue T) (l : List (Nat × T)) (it : Iterator) (i a : Nat)
    (x : T) (hq : Regular q l) (hl : l[i]? = some (a, x)) (hcur : it.current = some a)
    (hfresh : it.expected_mod_count = q.mod_count) (hce : it.can_erase = true) :
    Iterator.star q it = Res.ok x := by
  rw [regular_iff] at hq
  have hcell := seg_cell l i _ a x hq.1 hl
  simp [Iterator.star, hfresh, hce, hcur, deref_of_cell hcell]

end Advancing

section Refinement

open LinkedQueue

theorem empty_of_regular {q : LinkedQueue T} {l : List (Nat × T)} (h : Regular q l) :
    empty q = (l.map Prod.snd).isEmpty := by
  rw [regular_iff] at h
  cases l with
  | nil =>
    have hf : q.front = none := h.1
    simp [empty, hf]
  | cons c l =>
    obtain ⟨a, x⟩ := c
    simp [empty, h.1.1]

theorem call_refines (q : LinkedQueue T) (l : List (Nat × T)) (c : Call T)
    (hq : Regular q l) :
    ∃ q1 l1, call q c = Res.ok ((ListModel.call (l.map Prod.snd) c).1, q1) ∧
      Regular q1 l1 ∧ l1.map Prod.snd = (ListModel.call (l.map Prod.snd) c).2 := by
  cases c with
  | enqueue v =>
    obtain ⟨q1, he, hr, _⟩ := enqueue_regular q l v hq
    exact ⟨q1, _, by simp [call, he, ListModel.call], hr, by simp [ListModel.call]⟩
  | dequeue =>
    cases l with
    | nil =>
      have he := empty_of_regular_nil hq
      exact ⟨q, [], by simp [call, dequeue, he, raise, ListModel.call], hq, rfl⟩
    | cons d l =>
      obtain ⟨a, x⟩ := d
      obtain ⟨q1, he, hr, _⟩ := dequeue_regular q a x l hq
      exact ⟨q1, l, by simp [call, he, ListModel.call], hr, rfl⟩
  | clear =>
    refine ⟨clear q, [], by simp [call, ListModel.call], ?_, by simp [ListModel.call]⟩
    rw [regular_iff]
    exact ⟨rfl, fun h => absurd rfl h⟩

theorem observe_refines (cs : List (Call T)) :
    ∀ (q : LinkedQueue T) (l : List (Nat × T)), Regular q l →
      ∃ q1 l1, observe q cs = Res.ok ((ListModel.observe (l.map Prod.snd) cs).1, q1) ∧
        Regular q1 l1 ∧ l1.map Prod.snd = (ListModel.observe (l.map Prod.snd) cs).2 := by
  induction cs with
  | nil =>
    intro q l hq
    exact ⟨q, l, rfl, hq, rfl⟩
  | cons c cs ih =>
    intro q l hq
    obtain ⟨q1, l1, hc, hr1, hl1⟩ := call_refines q l c hq
    obtain ⟨q2, l2, ho, hr2, hl2⟩ := ih q1 l1 hr1
    refine ⟨q2, l2, ?_, hr2, ?_⟩
    · simp only [observe, hc, Res.ok_bind, size_of_cells hr1.1, ho, Res.pure_eq,
        ListModel.observe, empty_of_regular hr1, hl1]
      simp [← hl1]
    · rw [hl2, hl1]
      rfl

end Refinement

section Loops

open LinkedQueue

theorem pre_inc_post_erase (q : LinkedQueue T) (l : List (Nat × T)) (it : Iterator)
    (i : Nat) (ht : Iterator.Tracks q l it i) (hce : it.can_erase = false) :
    ∃ it1, Iterator.pre_inc q it = Res.ok it1 ∧ Iterator.Tracks q l it1 i ∧
      (i < l.length → it1.can_erase = true) ∧ it1.ref_queue = it.ref_queue := by
  have hn := tracks_current_none q l it i ht
  unfold Iterator.pre_inc
  simp only [ht.1, bne_self_eq_false, Bool.false_eq_true, if_false]
  by_cases hc : it.current = none
  · refine ⟨it, by simp [hc], ht, ?_, rfl⟩
    intro hi
    have := hn.1 hc
    omega
  · refine ⟨{ it with can_erase := true }, ?_, ⟨ht.1, ht.2.1, ht.2.2.1, ht.2.2.2⟩,
      fun _ => rfl, rfl⟩
    simp [hc, Iterator.advance, hce]

theorem pre_inc_valid (q : LinkedQueue T) (l : List (Nat × T)) (it : Iterator) (i : Nat)
    (hq : Regular q l) (ht : Iterator.Tracks q l it i) (hi : i < l.length)
    (hce : it.can_erase = true) :
    ∃ it1, Iterator.pre_inc q it = Res.ok it1 ∧ Iterator.Tracks q l it1 (i + 1) ∧
      it1.can_erase = true ∧ it1.ref_queue = it.ref_queue := by
  have hl : l[i]? = some (l[i].1, l[i].2) := by
    rw [List.getElem?_eq_getElem hi]
  have hcur : it.current = some l[i].1 := by
    rw [ht.2.2.1, List.getElem?_eq_getElem hi]
    rfl
  refine ⟨_, pre_inc_at q l it i _ _ hq hl hcur ht.1, ?_, ?_, ?_⟩
  · refine ⟨?_, hi, ?_, ?_⟩
    · simp [Iterator.advance_spec, hce, ht.1]
    · simp [Iterator.advance_spec, hce]
    · simp [Iterator.advance_spec, hce, hcur, List.getElem?_eq_getElem hi]
  · simp [Iterator.advance_spec, hce]
  · simp [Iterator.advance_spec, hce]

theorem filter_map_snd {α : Type} (p : T → Bool) (l : List (α × T)) :
    (l.filter (fun c => !p c.2)).map Prod.snd = (l.map Prod.snd).filter (fun x => !p x) := by
  induction l with
  | nil => rfl
  | cons c l ih =>
    by_cases h : p c.2 = true
    · simp [List.filter_cons, h, ih]
    · simp [List.filter_cons, h, ih]

theorem getElem?_append_length {α : Type} (l1 : List α) (c : α) (l2 : List α) :
    (l1 ++ c :: l2)[l1.length]? = some c := by
  rw [List.getElem?_append_right (Nat.le_refl _)]
  simp

theorem eraseIdx_append_length {α : Type} (l1 : List α) (c : α) (l2 : List α) :
    (l1 ++ c :: l2).eraseIdx l1.length = l1 ++ l2 := by
  rw [List.eraseIdx_append_of_length_le (Nat.le_refl _)]
  simp

theorem erase_if_loop_spec (p : T → Bool) (addr : Nat) :
    ∀ (rest done : List (Nat × T)) (fuel : Nat) (q : LinkedQueue T) (it : Iterator)
      (acc : List (Event T)),
      Regular q (done ++ rest) → Iterator.Tracks q (done ++ rest) it done.length →
      (rest ≠ [] → it.can_erase = true) → it.ref_queue = addr → rest.length ≤ fuel →
        ∃ q1 it1, erase_if_loop p addr fuel q it acc =
            Res.ok (acc ++ expected_events p (rest.map Prod.snd), q1, it1) ∧
          Regular q1 (done ++ rest.filter (fun c => !p c.2)) ∧
          q1.mod_count = q.mod_count := by
  intro rest
  induction rest with
  | nil =>
    intro done fuel q it acc hq ht _ hr _
    refine ⟨q, it, ?_, by simpa using hq, rfl⟩
    rw [erase_if_loop.eq_def]
    dsimp only
    rw [op_ne_end addr q _ it _ ht hr]
    simp [expected_events]
  | cons c rest ih =>
    intro done fuel q it acc hq ht hce hr hfuel
    obtain ⟨a, x⟩ := c
    have hce' := hce (by simp)
    have hl := getElem?_append_length done (a, x) rest
    have hi : done.length < (done ++ (a, x) :: rest).length := by simp
    have hcur : it.current = some a := by
      rw [ht.2.2.1, hl]
      rfl
    cases fuel with
    | zero => simp at hfuel
    | succ fuel =>
      have hstar := star_at q _ it _ a x hq hl hcur ht.1 hce'
      rw [erase_if_loop, op_ne_end addr q _ it _ ht hr]
      simp only [hi, decide_True, Res.ok_bind, if_true, hstar]
      by_cases hp : p x = true
      · obtain ⟨a', x', q1, it1, hl', _, he, hr1, ht1, hce1, _, _, hrq, hmq, _⟩ :=
          erase_tracks q _ it _ hq ht hce' hi
        rw [hl] at hl'
        cases hl'
        rw [eraseIdx_append_length] at hr1 ht1
        obtain ⟨it2, hinc, ht2, hce2, hrq2⟩ := pre_inc_post_erase q1 _ it1 _ ht1 hce1
        have hce2' : rest ≠ [] → it2.can_erase = true := by
          intro hne
          apply hce2
          simp only [List.length_append]
          have : 0 < rest.length := List.length_pos.2 hne
          omega
        obtain ⟨q3, it3, hloop, hr3, hm3⟩ :=
          ih done fuel q1 it2 (acc ++ [Event.deref x, Event.erased x]) hr1 ht2 hce2'
            (by rw [hrq2, hrq, hr]) (by simpa using hfuel)
        refine ⟨q3, it3, ?_, ?_, by rw [hm3, hmq]⟩
        · simp only [hp, if_true, he, Res.ok_bind, hinc, hloop]
          simp [expected_events, hp]
        · simpa [List.filter_cons, hp] using hr3
      · obtain ⟨it2, hinc, ht2, hce2, hrq2⟩ := pre_inc_valid q _ it _ hq ht hi hce'
        have hq' : Regular q ((done ++ [(a, x)]) ++ rest) := by simpa using hq
        have ht2' : Iterator.Tracks q ((done ++ [(a, x)]) ++ rest) it2
            (done ++ [(a, x)]).length := by simpa using ht2
        obtain ⟨q3, it3, hloop, hr3, hm3⟩ :=
          ih (done ++ [(a, x)]) fuel q it2 (acc ++ [Event.deref x]) hq' ht2'
            (fun _ => hce2) (by rw [hrq2, hr]) (by simpa using hfuel)
        refine ⟨q3, it3, ?_, ?_, hm3⟩
        · simp only [hp, Bool.false_eq_true, if_false, hinc, Res.ok_bind, hloop]
          simp [expected_events, hp]
        · simpa [List.filter_cons, hp] using hr3

theorem erase_all_loop_spec (addr : Nat) :
    ∀ (rest : List (Nat × T)) (fuel : Nat) (q : LinkedQueue T) (it : Iterator)
      (acc : List T),
      Regular q rest → Iterator.Tracks q rest it 0 →
      (rest ≠ [] → it.can_erase = true) → it.ref_queue = addr → rest.length ≤ fuel →
        ∃ q1 it1, erase_all_loop addr fuel q it acc =
            Res.ok (acc ++ rest.map Prod.snd, q1, it1) ∧
          Regular q1 [] ∧ q1.mod_count = q.mod_count := by
  intro rest
  induction rest with
  | nil =>
    intro fuel q it acc hq ht _ hr _
    refine ⟨q, it, ?_, hq, rfl⟩
    rw [erase_all_loop.eq_def]
    dsimp only
    rw [op_ne_end addr q _ it _ ht hr]
    simp
  | cons c rest ih =>
    intro fuel q it acc hq ht hce hr hfuel
    obtain ⟨a, x⟩ := c
    have hce' := hce (by simp)
    have hi : 0 < ((a, x) :: rest).length := by simp
    cases fuel with
    | zero => simp at hfuel
    | succ fuel =>
      rw [erase_all_loop, op_ne_end addr q _ it _ ht hr]
      simp only [hi, decide_True, Res.ok_bind, if_true]
      obtain ⟨a', x', q1, it1, hl', _, he, hr1, ht1, hce1, _, _, hrq, hmq, _⟩ :=
        erase_tracks q _ it _ hq ht hce' hi
      simp only [List.getElem?_cons_zero, Option.some.injEq, Prod.mk.injEq] at hl'
      obtain ⟨rfl, rfl⟩ := hl'
      simp only [List.eraseIdx_cons_zero] at hr1 ht1
      obtain ⟨it2, hinc, ht2, hce2, hrq2⟩ := pre_inc_post_erase q1 _ it1 _ ht1 hce1
      have hce2' : rest ≠ [] → it2.can_erase = true :=
        fun hne => hce2 (List.length_pos.2 hne)
      obtain ⟨q3, it3, hloop, hr3, hm3⟩ :=
        ih fuel q1 it2 (acc ++ [x]) hr1 ht2 hce2' (by rw [hrq2, hrq, hr])
          (by simpa using hfuel)
      refine ⟨q3, it3, ?_, hr3, by rw [hm3, hmq]⟩
      simp only [he, Res.ok_bind, hinc, hloop]
      simp

theorem regular_length_le {q : LinkedQueue T} {l : List (Nat × T)} (hq : Regular q l) :
    l.length ≤ q.mem.length :=
  Seg.length_le l _ ((cells_iff q l).1 hq.1)

end Loops

section Claims

open LinkedQueue

/-- C1 (FIFO): for every list of values `vs`, enqueueing them one by one into a
default-constructed queue succeeds, the following `vs.length` calls of `dequeue` all
succeed and return `vs` in the same order, and the queue is then `empty()`. -/
theorem fifo_order (vs : List T) :
    ∃ q q1 : LinkedQueue T, enqueue_each init vs = Res.ok q ∧
      dequeue_n vs.length q = Res.ok (vs, q1) ∧ empty q1 = true := by
  obtain ⟨q, l, he, hr, hv, _⟩ := enqueue_each_regular vs (init : LinkedQueue T) [] regular_init
  obtain ⟨q1, hd, hr1, _⟩ := dequeue_n_regular ([] ++ l) q hr
  refine ⟨q, q1, he, ?_, empty_of_regular_nil hr1⟩
  have hlen : vs.length = l.length := by rw [← hv]; simp
  rw [hlen]
  simpa [hv] using hd

/-- C3 (empty-queue failures): `peek()` throws `EmptyError` exactly when the queue is
empty, and so does `dequeue()`; both throw before anything is written, and `peek` is a
query that returns only a value. The queue is empty exactly when its element sequence is,
and on a non-empty queue `peek()` yields the first element of the sequence. -/
theorem empty_queue_failures (q : LinkedQueue T) :
    (peek q = Res.fail (.thrown .EmptyError) ↔ empty q = true) ∧
    (dequeue q = Res.fail (.thrown .EmptyError) ↔ empty q = true) ∧
    (∀ xs, elements q = some xs → (empty q = true ↔ xs = [])) ∧
    (∀ x xs, elements q = some (x :: xs) → peek q = Res.ok x) := by
  refine ⟨?_, ?_, ?_, ?_⟩
  · cases hf : q.front with
    | none => simp [peek, empty, hf, raise]
    | some a =>
      simp only [peek, empty, hf]
      cases hd : deref q.mem (some a) with
      | ok n => simp [hd]
      | fail f => simp [hd, deref_some_fail hd]
  · cases hf : q.front with
    | none => simp [dequeue, empty, hf, raise]
    | some a =>
      simp only [dequeue, empty, hf]
      cases hd : deref q.mem (some a) with
      | ok n => simp [hd]
      | fail f => simp [hd, deref_some_fail hd]
  · intro xs h
    simp only [elements, Option.map_eq_some'] at h
    obtain ⟨l, hl, rfl⟩ := h
    have hs := (cells_iff q l).1 hl
    cases l with
    | nil =>
      have hf : q.front = none := hs
      simp [empty, hf]
    | cons c l =>
      obtain ⟨a, x⟩ := c
      simp [empty, hs.1]
  · intro x xs h
    simp only [elements, Option.map_eq_some'] at h
    obtain ⟨l, hl, hx⟩ := h
    have hs := (cells_iff q l).1 hl
    cases l with
    | nil => simp at hx
    | cons c l =>
      obtain ⟨a, y⟩ := c
      simp only [List.map_cons, List.cons.injEq] at hx
      obtain ⟨rfl, _⟩ := hx
      obtain ⟨hf, nx, hc, _⟩ := hs
      simp [peek, hf, deref_of_cell hc]

/-- Witness for C3: on the queue holding 1, 2, 3 `peek()` yields 1, and the queue is not
empty. -/
theorem empty_queue_failures_witness :
    peek q123 = Res.ok 1 ∧ (empty q123 = true ↔ [1, 2, 3] = ([] : List Nat)) :=
  ⟨(empty_queue_failures q123).2.2.2 1 [2, 3] (by decide),
   (empty_queue_failures q123).2.2.1 [1, 2, 3] (by decide)⟩

/-- C4 (queue equality is list equality): for queues `a` and `b` with element sequences
`xs` and `ys`, `a == b` returns, and it returns true exactly when the sizes agree and the
sequences agree at every position; `a != b` returns the negation; `size()` returns the
length of the sequence. Both operators are queries that return only a truth value. -/
theorem queue_equality [DecidableEq T] (a b : LinkedQueue T) (xs ys : List T)
    (ha : elements a = some xs) (hb : elements b = some ys) :
    ∃ r : Bool, op_eq a b = Res.ok r ∧ op_ne a b = Res.ok (!r) ∧
      size a = Res.ok (xs.length : Int) ∧ size b = Res.ok (ys.length : Int) ∧
      (r = true ↔ (xs.length = ys.length ∧ ∀ i, i < xs.length → xs[i]? = ys[i]?)) := by
  refine ⟨decide (xs = ys), op_eq_of_elements ha hb, op_ne_of_elements ha hb, ?_, ?_, ?_⟩
  · simp only [elements, Option.map_eq_some'] at ha
    obtain ⟨l, hl, rfl⟩ := ha
    simpa using size_of_cells hl
  · simp only [elements, Option.map_eq_some'] at hb
    obtain ⟨l, hl, rfl⟩ := hb
    simpa using size_of_cells hl
  · simp only [decide_eq_true_eq]
    constructor
    · rintro rfl
      exact ⟨rfl, fun _ _ => rfl⟩
    · rintro ⟨hlen, hi⟩
      apply List.ext_getElem? 
      intro i
      by_cases h : i < xs.length
      · exact hi i h
      · rw [List.getElem?_eq_none (Nat.le_of_not_lt h),
          List.getElem?_eq_none (hlen ▸ Nat.le_of_not_lt h)]

/-- Witness for C4: the queue built from {1,2,3} equals itself and differs from the one
built from {1,2}. -/
theorem queue_equality_witness :
    (∃ r : Bool, op_eq q123 q12 = Res.ok r ∧ op_ne q123 q12 = Res.ok (!r) ∧
      size q123 = Res.ok 3 ∧ size q12 = Res.ok 2 ∧
      (r = true ↔ ((3 : Nat) = 2 ∧ ∀ i, i < 3 → [1, 2, 3][i]? = [1, 2][i]?))) ∧
    from_list [1, 2, 3] = Res.ok q123 ∧ from_list [1, 2] = Res.ok q12 ∧
    op_eq q123 q123 = Res.ok true ∧ op_eq q123 q12 = Res.ok false ∧
    op_ne q123 q12 = Res.ok true :=
  ⟨queue_equality q123 q12 [1, 2, 3] [1, 2] (by decide) (by decide),
   by decide, by decide, by decide, by decide, by decide⟩

/-- C5 (copy construction preserves order): for a queue `Q` with element sequence `xs`,
the copy constructor, which walks `Q` with `begin()`, `end()`, `!=`, `++` and `*`, returns
without any fault and yields a queue with the same element sequence `xs`, and `Q == C`
is true. The copy constructor only reads `Q`. -/
theorem copy_preserves_order [DecidableEq T] (src_addr : Nat) (Q : LinkedQueue T)
    (xs : List T) (h : elements Q = some xs) :
    ∃ C, copy src_addr Q = Res.ok C ∧ elements C = some xs ∧ op_eq Q C = Res.ok true := by
  have h0 := h
  simp only [elements, Option.map_eq_some'] at h
  obtain ⟨l, hl, rfl⟩ := h
  obtain ⟨C, lc, hc, hr, hv, _⟩ := copy_regular src_addr Q l hl
  have hel : elements C = some (l.map Prod.snd) := by
    rw [elements_of_cells hr.1, hv]
  refine ⟨C, hc, hel, ?_⟩
  rw [op_eq_of_elements h0 hel]
  simp

/-- Witness for C5: copying the queue holding 1, 2, 3. -/
theorem copy_preserves_order_witness :
    ∃ C, copy 7 q123 = Res.ok C ∧ elements C = some [1, 2, 3] ∧ op_eq q123 C = Res.ok true :=
  copy_preserves_order 7 q123 [1, 2, 3] (by decide)

/-- C7 as stated fails: a default-constructed queue on which `clear()` was called
2147483647 times has `mod_count` 2147483647; assigning the queue holding 1, 2 to it gives
it the elements 1, 2 and leaves its `mod_count` at -2147483645, which is not larger than
before. -/
theorem assign_wraps_counterexample :
    ∃ a a1 : LinkedQueue Nat,
      Mutation.mutate_all 0 init (List.replicate 2147483647 Mutation.clear) = Res.ok a ∧
      a.mod_count = 2147483647 ∧
      assign 0 a 1 q12 = Res.ok a1 ∧ elements a1 = some [1, 2] ∧
      a1.mod_count = -2147483645 ∧ ¬ a.mod_count < a1.mod_count := by
  refine ⟨LinkedQueue.mk [] none none 0 2147483647,
    LinkedQueue.mk [some ⟨1, some 1⟩, some ⟨2, none⟩] (some 0) (some 1) 0 (-2147483645),
    ?_, rfl, ?_, ?_, rfl, ?_⟩
  · rw [mutate_all_clear_pos 0 2147483647 (by decide)]
    rfl
  · decide
  · decide
  · decide

/-- C7, amended (copy assignment replaces the contents in order): for two distinct queue
objects `a` and `b`, where `b` has element sequence `ys`, `a = b` returns, `a` then has
element sequence `ys` whatever it held before, and `a == b` is true; the operator only
reads `b`. The `mod_count` of `a` has been incremented `ys.length + 2` times, as a 32-bit
`int`: when the old value plus `ys.length + 2` does not exceed 2147483647 the new value is
that sum and is larger than before. Self-assignment returns `a` as it was. -/
theorem assign_replaces [DecidableEq T] (a_addr b_addr : Nat) (a b : LinkedQueue T)
    (ys : List T) (hne : a_addr ≠ b_addr) (hb : elements b = some ys) :
    (∃ a1, assign a_addr a b_addr b = Res.ok a1 ∧ elements a1 = some ys ∧
      op_eq a1 b = Res.ok true ∧
      a1.mod_count = wrap32 (a.mod_count + ys.length + 2) ∧
      (-2147483648 ≤ a.mod_count → a.mod_count + ys.length + 2 ≤ 2147483647 →
        a1.mod_count = a.mod_count + ys.length + 2 ∧ a.mod_count < a1.mod_count)) ∧
    assign a_addr a a_addr a = Res.ok a := by
  constructor
  · have h0 := hb
    simp only [elements, Option.map_eq_some'] at hb
    obtain ⟨l, hl, rfl⟩ := hb
    obtain ⟨a1, l1, ha, hr, hv, hm⟩ := assign_regular a_addr b_addr a b l hne hl
    have hel : elements a1 = some (l.map Prod.snd) := by
      rw [elements_of_cells hr.1, hv]
    have hm' : a1.mod_count = wrap32 (a.mod_count + (l.map Prod.snd).length + 2) := by
      rw [hm, ← Function.iterate_succ_apply, ← Function.iterate_succ_apply' incr,
        iterate_incr]
      congr 1
      simp only [List.length_map]
      push_cast
      ring
    refine ⟨a1, ha, hel, ?_, hm', ?_⟩
    · rw [op_eq_of_elements hel h0]
      simp
    · intro hlo hhi
      rw [hm', wrap32_of_range _ (by omega) hhi]
      exact ⟨rfl, by omega⟩
  · simp [assign]

/-- Witness for C7: assigning the queue holding 1, 2 to the queue holding 1, 2, 3. -/
theorem assign_replaces_witness :
    (∃ a1, assign 0 q123 1 q12 = Res.ok a1 ∧ elements a1 = some [1, 2] ∧
      op_eq a1 q12 = Res.ok true ∧
      a1.mod_count = wrap32 (q123.mod_count + ([1, 2] : List Nat).length + 2) ∧
      (-2147483648 ≤ q123.mod_count →
        q123.mod_count + ([1, 2] : List Nat).length + 2 ≤ 2147483647 →
        a1.mod_count = q123.mod_count + ([1, 2] : List Nat).length + 2 ∧
        q123.mod_count < a1.mod_count)) ∧
    assign 0 q123 0 q123 = Res.ok q123 :=
  assign_replaces 0 1 q123 q12 [1, 2] (by decide) (by decide)

/-- C2 (size accounting), evaluated where it breaks: after `enqueue(4)`, `enqueue(5)` two
iterators are taken with `begin()`. `erase()` through the first returns 4 and leaves one
element. `erase()` through the second is not rejected as stale, because the first `erase`
left `mod_count` alone, and reads the node the first one deleted. -/
theorem second_iterator_erase_reads_deleted_node :
    ∃ q q1 it1, enqueue_each (init : LinkedQueue Nat) [4, 5] = Res.ok q ∧
      Iterator.erase q (begin 0 q) = Res.ok (4, q1, it1) ∧
      size q1 = Res.ok 1 ∧
      (begin 0 q).expected_mod_count = q1.mod_count ∧
      Iterator.erase q1 (begin 0 q) = Res.fail .danglingDereference := by
  refine ⟨{ mem := [some ⟨4, some 1⟩, some ⟨5, none⟩], front := some 0, rear := some 1,
            used := 0, mod_count := 2 },
    { mem := [none, some ⟨5, none⟩], front := some 1, rear := some 1, used := 0,
      mod_count := 2 },
    ⟨none, some 1, 0, 2, false⟩, ?_, ?_, ?_, ?_, ?_⟩ <;> decide

/-- C6 as stated fails: a `clear()` of an empty queue, and an assignment of the copy back
to the original, are mutating calls that return and leave `Q == C` true and `Q != C`
false. -/
theorem copy_diverges_counterexample :
    (∃ C Q1, copy 0 (init : LinkedQueue Nat) = Res.ok C ∧
      Mutation.mutate 0 init Mutation.clear = Res.ok Q1 ∧
      op_ne Q1 C = Res.ok false ∧ op_eq Q1 C = Res.ok true) ∧
    (∃ C Q1, copy 0 q12 = Res.ok C ∧
      Mutation.mutate 0 q12 (Mutation.assign 1 C) = Res.ok Q1 ∧
      op_ne Q1 C = Res.ok false ∧ op_eq Q1 C = Res.ok true) := by
  refine ⟨⟨init, clear init, ?_, ?_, ?_, ?_⟩, ⟨q12, ?_, ?_, ?_, ?_, ?_⟩⟩
  · decide
  · decide
  · decide
  · decide
  · exact { mem := [some ⟨1, some 1⟩, some ⟨2, none⟩, some ⟨1, some 3⟩, some ⟨2, none⟩],
            front := some 2, rear := some 3, used := 0, mod_count := 6 }
  · decide
  · decide
  · decide
  · decide

/-- C6, amended: let `Q` be a queue in a regular state and `C` its copy. After one call
that changes the element sequence of the queue it is applied to (an `enqueue`, a `dequeue`
that returns, an `erase` that returns through an iterator in step with the queue, a `clear`
of a queue that holds an element, an assignment from another object with a different
element sequence), applied to `Q` or to `C`, `Q != C` is true and `Q == C` is false. -/
theorem copy_diverges [DecidableEq T] (q_addr c_addr : Nat) (Q C : LinkedQueue T)
    (l : List (Nat × T)) (hQ : Regular Q l) (hC : copy q_addr Q = Res.ok C) :
    (∀ m Q1, Mutation.alters q_addr Q l m → Mutation.mutate q_addr Q m = Res.ok Q1 →
      op_ne Q1 C = Res.ok true ∧ op_eq Q1 C = Res.ok false) ∧
    (∀ m C1 lc, Regular C lc → Mutation.alters c_addr C lc m →
      Mutation.mutate c_addr C m = Res.ok C1 →
      op_ne Q C1 = Res.ok true ∧ op_eq Q C1 = Res.ok false) := by
  obtain ⟨C', lc0, hc0, hr0, hv0, _⟩ := copy_regular q_addr Q l hQ.1
  rw [hC] at hc0
  cases hc0
  have hQel := elements_of_cells hQ.1
  have hCel := elements_of_cells hr0.1
  constructor
  · intro m Q1 ha hm
    obtain ⟨l1, hr1, hne⟩ := mutate_alters q_addr Q Q1 l m hQ ha hm
    have h1 := elements_of_cells hr1.1
    rw [op_ne_of_elements h1 hCel, op_eq_of_elements h1 hCel, hv0]
    simp [hne]
  · intro m C1 lc hrc ha hm
    obtain ⟨l1, hr1, hne⟩ := mutate_alters c_addr C C1 lc m hrc ha hm
    have h1 := elements_of_cells hr1.1
    have hlc : lc = lc0 := by
      have := hrc.1
      rw [hr0.1] at this
      exact (Option.some.inj this).symm
    subst hlc
    rw [op_ne_of_elements hQel h1, op_eq_of_elements hQel h1, ← hv0]
    have hne' : ¬ lc.map Prod.snd = l1.map Prod.snd := fun h => hne h.symm
    simp [hne']

/-- Witness for C6: the queue holding 1, 2 and its copy (which is the same state). -/
theorem copy_diverges_witness :
    (∀ m Q1, Mutation.alters 0 q12 [(0, 1), (1, 2)] m → Mutation.mutate 0 q12 m = Res.ok Q1 →
      op_ne Q1 q12 = Res.ok true ∧ op_eq Q1 q12 = Res.ok false) ∧
    (∀ m C1 lc, Regular q12 lc → Mutation.alters 1 q12 lc m →
      Mutation.mutate 1 q12 m = Res.ok C1 →
      op_ne q12 C1 = Res.ok true ∧ op_eq q12 C1 = Res.ok false) :=
  copy_diverges 0 1 q12 q12 [(0, 1), (1, 2)] (by decide) (by decide)

/-- C8 as stated fails: take `begin()` on the queue holding 1, 2 and then call `clear()`
on the queue 4294967296 times. Each call returns, the 32-bit `mod_count` is back at its old
value, and the iterator is not rejected: `==`, `!=`, `->`, `*`, `++` and `erase` all
return instead of throwing `ConcurrentModificationError`. -/
theorem fail_fast_counterexample :
    ∃ q1 : LinkedQueue Nat,
      Mutation.mutate_all 0 q12 (List.replicate 4294967296 Mutation.clear) = Res.ok q1 ∧
      (∀ m ∈ List.replicate 4294967296 (Mutation.clear : Mutation Nat), m.direct = true) ∧
      q1.mod_count = (begin 0 q12).expected_mod_count ∧
      Iterator.op_eq q1 (begin 0 q12) (end_ 0 q1) = Res.ok false ∧
      Iterator.op_ne q1 (begin 0 q12) (end_ 0 q1) = Res.ok true ∧
      Iterator.arrow q1 (begin 0 q12) = Res.ok (some 0) ∧
      Iterator.star q1 (begin 0 q12) = Res.ok 1 ∧
      Iterator.pre_inc q1 (begin 0 q12) = Res.ok (Iterator.mk (some 0) (some 1) 0 2 true) ∧
      (∃ r, Iterator.erase q1 (begin 0 q12) = Res.ok r) := by
  refine ⟨LinkedQueue.mk [some ⟨1, some 1⟩, some ⟨2, none⟩] none none 0 2, ?_, ?_, rfl,
    ?_, ?_, ?_, ?_, ?_, ?_⟩
  · rw [mutate_all_clear_pos 0 4294967296 (by decide)]
    rfl
  · intro m hm
    rw [List.eq_of_mem_replicate hm]
    rfl
  · decide
  · decide
  · decide
  · decide
  · decide
  · exact ⟨(1, LinkedQueue.mk [some ⟨1, some 1⟩, some ⟨2, none⟩] none none 0 2,
      Iterator.mk none (some 0) 0 2 false), by decide⟩

/-- C8, amended (fail-fast on direct mutation): let `it` be an iterator that is not stale
for the queue state `q`, whatever its `prev`, `current` and `can_erase` are. After `k`
calls of `enqueue`, `dequeue`, `clear` on the queue that return, where `k` is not a
multiple of 4294967296 (so after one call, and after any number of calls below
4294967296), every operation on `it` (`erase`, both `++`, `*`, `->`, `==` and `!=` against
any iterator `rhs`) throws `ConcurrentModificationError`: the staleness check comes before
every other check. -/
theorem fail_fast (addr : Nat) (q q1 : LinkedQueue T) (it rhs : Iterator)
    (ms : List (Mutation T)) (hfresh : it.expected_mod_count = q.mod_count)
    (hk : ms.length % 4294967296 ≠ 0) (hd : ∀ m ∈ ms, m.direct = true)
    (hrun : Mutation.mutate_all addr q ms = Res.ok q1) :
    Iterator.erase q1 it = Res.fail (.thrown .ConcurrentModificationError) ∧
    Iterator.pre_inc q1 it = Res.fail (.thrown .ConcurrentModificationError) ∧
    Iterator.post_inc q1 it = Res.fail (.thrown .ConcurrentModificationError) ∧
    Iterator.star q1 it = Res.fail (.thrown .ConcurrentModificationError) ∧
    Iterator.arrow q1 it = Res.fail (.thrown .ConcurrentModificationError) ∧
    Iterator.op_eq q1 it rhs = Res.fail (.thrown .ConcurrentModificationError) ∧
    Iterator.op_ne q1 it rhs = Res.fail (.thrown .ConcurrentModificationError) := by
  have hm := mutate_all_mod_count addr ms q q1 hd hrun
  have hpos : 0 < ms.length := by
    rcases Nat.eq_zero_or_pos ms.length with h | h
    · rw [h] at hk
      exact absurd rfl hk
    · exact h
  have hstale : (it.expected_mod_count != q1.mod_count) = true := by
    simp only [bne_iff_ne, ne_eq]
    rw [hm, hfresh, iterate_incr_pos _ _ hpos]
    exact fun h => wrap32_add_ne q.mod_count ms.length hk h.symm
  simp [Iterator.erase, Iterator.pre_inc, Iterator.post_inc, Iterator.star, Iterator.arrow,
    Iterator.op_eq, Iterator.op_ne, hstale, raise]

/-- Witness for C8: `begin()` on the queue holding 1, 2, then `dequeue()` and
`enqueue(7)` on the queue; the iterator is compared with an iterator of another queue. -/
theorem fail_fast_witness :
    Iterator.erase (LinkedQueue.mk [some ⟨1, some 1⟩, some ⟨2, some 2⟩, some ⟨7, none⟩]
        (some 1) (some 2) 0 4) (begin 0 q12) =
      Res.fail (.thrown .ConcurrentModificationError) ∧
    Iterator.op_eq (LinkedQueue.mk [some ⟨1, some 1⟩, some ⟨2, some 2⟩, some ⟨7, none⟩]
        (some 1) (some 2) 0 4) (begin 0 q12) (end_ 9 q123) =
      Res.fail (.thrown .ConcurrentModificationError) :=
  have h := fail_fast 0 q12 (LinkedQueue.mk [some ⟨1, some 1⟩, some ⟨2, some 2⟩,
      some ⟨7, none⟩] (some 1) (some 2) 0 4) (begin 0 q12) (end_ 9 q123)
    [Mutation.dequeue, Mutation.enqueue 7] rfl (by decide) (by simp [Mutation.direct])
    (by decide)
  ⟨h.1, h.2.2.2.2.2.1⟩

/-- C9 (erase as a counted mutation), evaluated where it breaks: on the queue holding 1, 2
with two iterators from `begin()`, `erase()` through the first returns 1 and leaves
`mod_count` at its old value. The second iterator is therefore not stale: its `==`, `!=`
and `->` return, and its `*`, both `++` and `erase` read the deleted node instead of
throwing `ConcurrentModificationError`. -/
theorem erase_leaves_mod_count :
    ∃ q1 it1, Iterator.erase q12 (begin 0 q12) = Res.ok (1, q1, it1) ∧
      q1.mod_count = q12.mod_count ∧
      Iterator.op_eq q1 (begin 0 q12) (begin 0 q12) = Res.ok true ∧
      Iterator.op_ne q1 (begin 0 q12) (end_ 0 q12) = Res.ok true ∧
      Iterator.arrow q1 (begin 0 q12) = Res.ok (some 0) ∧
      Iterator.star q1 (begin 0 q12) = Res.fail .danglingDereference ∧
      Iterator.pre_inc q1 (begin 0 q12) = Res.fail .danglingDereference ∧
      Iterator.post_inc q1 (begin 0 q12) = Res.fail .danglingDereference ∧
      Iterator.erase q1 (begin 0 q12) = Res.fail .danglingDereference := by
  refine ⟨{ mem := [none, some ⟨2, none⟩], front := some 1, rear := some 1, used := 0,
            mod_count := 2 },
    ⟨none, some 1, 0, 2, false⟩, ?_, ?_, ?_, ?_, ?_, ?_, ?_, ?_, ?_⟩ <;> decide

/-- C10 (erase postcondition), evaluated where it breaks: on the queue holding 1, 2 take
`it1 = begin()` and `it2 = begin()`, advance `it2` with `++` and call `it1.erase()`, which
returns 1 and leaves `mod_count` alone. The queue now holds the single element 2 and `it2`
is not stale and dereferenceable on it. `it2.erase()` returns 2 and empties the queue, but
sets `rear` to its `prev`, the node `it1` deleted, instead of null. -/
theorem second_iterator_erase_leaves_rear :
    ∃ it2 q1 it1 q2 it3, Iterator.pre_inc q12 (begin 0 q12) = Res.ok it2 ∧
      Iterator.erase q12 (begin 0 q12) = Res.ok (1, q1, it1) ∧
      elements q1 = some [2] ∧
      it2.expected_mod_count = q1.mod_count ∧ it2.can_erase = true ∧
      Iterator.star q1 it2 = Res.ok 2 ∧
      Iterator.erase q1 it2 = Res.ok (2, q2, it3) ∧
      empty q2 = true ∧ q2.front = none ∧ q2.rear = some 0 ∧ q2.mem[0]? = some none ∧
      it3.current = none ∧ it3.can_erase = false := by
  refine ⟨Iterator.mk (some 0) (some 1) 0 2 true,
    LinkedQueue.mk [none, some ⟨2, none⟩] (some 1) (some 1) 0 2,
    Iterator.mk none (some 1) 0 2 false,
    LinkedQueue.mk [none, none] none (some 0) 0 2,
    Iterator.mk (some 0) none 0 2 false, ?_, ?_, ?_, ?_, ?_, ?_, ?_, ?_, ?_, ?_, ?_, ?_, ?_⟩ <;>
    decide

/-- The erase postcondition while a single iterator is in use: start from a queue in a
regular state, take `begin()` and apply any sequence of `++` and `erase` calls that return,
through that iterator alone. If
the iterator is then dereferenceable (`can_erase` is set and `current` is not null), it
points to some position `i` of the chain `l` of the queue, and `erase()` returns the value
at position `i`; the chain becomes `l` without its cell `i` (so `rear` again points to the
last cell when one is left); `current` points to the former successor, or is null when `i`
was the last position; `can_erase` is false. When the erased element was the only one,
`front` and `rear` are both null, the queue is empty and the iterator is at the end. -/
theorem erase_postcondition (addr : Nat) (q0 q : LinkedQueue T) (l0 : List (Nat × T))
    (ops : List Iterator.IterOp) (it : Iterator) (h0 : Regular q0 l0)
    (hrun : Iterator.run q0 (begin addr q0) ops = Res.ok (q, it))
    (hce : it.can_erase = true) (hcur : it.current ≠ none) :
    ∃ l i a x q1 it1, Regular q l ∧ l[i]? = some (a, x) ∧ it.current = some a ∧
      Iterator.erase q it = Res.ok (x, q1, it1) ∧
      Regular q1 (l.eraseIdx i) ∧
      elements q1 = some ((l.map Prod.snd).eraseIdx i) ∧
      it1.current = l[i + 1]?.map Prod.fst ∧ it1.can_erase = false ∧
      it1.expected_mod_count = q1.mod_count ∧
      (l.length = 1 →
        q1.front = none ∧ q1.rear = none ∧ it1.current = none ∧ empty q1 = true) := by
  obtain ⟨l, i, hq, ht, _⟩ :=
    run_tracks ops q0 q l0 (begin addr q0) it 0 h0 (begin_tracks addr q0 l0 h0) hrun
  have hi : i < l.length := by
    by_contra hge
    apply hcur
    rw [ht.2.2.1, List.getElem?_eq_none (Nat.le_of_not_lt hge)]
    rfl
  obtain ⟨a, x, q1, it1, hl, hc, he, hr, ht1, hce1, hc1, _, _, _, _, hsole⟩ :=
    erase_tracks q l it i hq ht hce hi
  refine ⟨l, i, a, x, q1, it1, hq, hl, hc, he, hr, ?_, hc1, hce1, ht1.1, ?_⟩
  · rw [elements_of_cells hr.1, map_snd_eraseIdx]
  · intro hlen
    obtain ⟨hf, hre⟩ := hsole hlen
    refine ⟨hf, hre, ?_, by simp [empty, hf]⟩
    rw [hc1, List.getElem?_eq_none (by omega)]
    rfl

/-- The single-iterator erase postcondition on the queue holding 1, 2, 3: `begin()`, one
`++`, then `erase()`. -/
theorem erase_postcondition_witness :
    ∃ l i a x q1 it1, Regular q123 l ∧ l[i]? = some (a, x) ∧
      (Iterator.mk (some 0) (some 1) 0 3 true).current = some a ∧
      Iterator.erase q123 (Iterator.mk (some 0) (some 1) 0 3 true) = Res.ok (x, q1, it1) ∧
      Regular q1 (l.eraseIdx i) ∧
      elements q1 = some ((l.map Prod.snd).eraseIdx i) ∧
      it1.current = l[i + 1]?.map Prod.fst ∧ it1.can_erase = false ∧
      it1.expected_mod_count = q1.mod_count ∧
      (l.length = 1 →
        q1.front = none ∧ q1.rear = none ∧ it1.current = none ∧ empty q1 = true) :=
  erase_postcondition 0 q123 q123 [(0, 1), (1, 2), (2, 3)] [Iterator.IterOp.pre_inc]
    (Iterator.mk (some 0) (some 1) 0 3 true) (by decide) (by decide) rfl (by decide)

/-- C11 (an illegal erase is rejected, whole): for an iterator that is not stale,
`erase()` throws `CannotEraseError` exactly when `can_erase` is false or `current` is
null. That covers `end()`, `begin()` of an empty queue, and a second `erase()` right after
one that returned. The exception is thrown before anything is written, so the queue and
the iterator are as they were, and a call in such a state never returns a value. -/
theorem illegal_erase_rejected (addr : Nat) (q : LinkedQueue T) (it : Iterator)
    (hfresh : it.expected_mod_count = q.mod_count) :
    (Iterator.erase q it = Res.fail (.thrown .CannotEraseError) ↔
      (it.can_erase = false ∨ it.current = none)) ∧
    Iterator.erase q (end_ addr q) = Res.fail (.thrown .CannotEraseError) ∧
    (empty q = true →
      Iterator.erase q (begin addr q) = Res.fail (.thrown .CannotEraseError)) ∧
    (∀ x q1 it1, Iterator.erase q it = Res.ok (x, q1, it1) →
      Iterator.erase q1 it1 = Res.fail (.thrown .CannotEraseError)) := by
  refine ⟨?_, ?_, ?_, ?_⟩
  · constructor
    · intro h
      by_contra hn
      simp only [not_or, Bool.not_eq_false] at hn
      obtain ⟨hce, hcur⟩ := hn
      obtain ⟨a, ha⟩ := Option.ne_none_iff_exists'.1 hcur
      unfold Iterator.erase at h
      simp only [hfresh, bne_self_eq_false, Bool.false_eq_true, if_false, hce, ha,
        Bool.not_true, Bool.false_or, beq_iff_eq, reduceCtorEq] at h
      cases hd : deref q.mem (some a) with
      | fail f =>
        rw [deref_some_fail hd] at hd
        simp [hd] at h
      | ok n =>
        simp only [hd, Res.ok_bind] at h
        split at h
        · simp at h
        · split at h
          · cases hs : set_next q.mem it.prev n.next with
            | fail f =>
              simp only [hs, Res.fail_bind, Res.fail.injEq] at h
              subst h
              simp only [set_next] at hs
              split at hs
              · cases hs
              · split at hs <;> cases hs
            | ok m => simp [hs] at h
          · simp at h
    · intro h
      unfold Iterator.erase
      simp only [hfresh, bne_self_eq_false, Bool.false_eq_true, if_false]
      rcases h with h | h
      · simp [h, raise]
      · simp [h, raise]
  · simp [Iterator.erase, end_, raise]
  · intro he
    have hf : q.front = none := by simpa [empty] using he
    simp [Iterator.erase, begin, hf, raise]
  · intro x q1 it1 h
    have key : it1.can_erase = false ∧ it1.expected_mod_count = q1.mod_count := by
      unfold Iterator.erase at h
      simp only [hfresh, bne_self_eq_false, Bool.false_eq_true, if_false] at h
      split at h
      · simp [raise] at h
      · cases hd : deref q.mem it.current with
        | fail f => simp [hd] at h
        | ok n =>
          simp only [hd, Res.ok_bind] at h
          split at h
          · simp only [Res.pure_eq, Res.ok.injEq, Prod.mk.injEq] at h
            obtain ⟨_, rfl, rfl⟩ := h
            exact ⟨rfl, rfl⟩
          · split at h
            · cases hs : set_next q.mem it.prev n.next with
              | fail f => simp [hs] at h
              | ok m =>
                simp only [hs, Res.ok_bind, Res.pure_eq, Res.ok.injEq, Prod.mk.injEq] at h
                obtain ⟨_, rfl, rfl⟩ := h
                exact ⟨rfl, rfl⟩
            · simp only [Res.pure_eq, Res.ok.injEq, Prod.mk.injEq] at h
              obtain ⟨_, rfl, rfl⟩ := h
              exact ⟨rfl, rfl⟩
    unfold Iterator.erase
    simp [key.1, key.2, raise]

/-- Witness for C11: a second `erase()` on the queue holding 1, 2, 3, with no advance in
between. -/
theorem illegal_erase_rejected_witness :
    Iterator.erase (LinkedQueue.mk [none, some ⟨2, some 2⟩, some ⟨3, none⟩] (some 1)
        (some 2) 0 3) (Iterator.mk none (some 1) 0 3 false) =
      Res.fail (.thrown .CannotEraseError) :=
  (illegal_erase_rejected 0 q123 (begin 0 q123) rfl).2.2.2 1
    (LinkedQueue.mk [none, some ⟨2, some 2⟩, some ⟨3, none⟩] (some 1) (some 2) 0 3)
    (Iterator.mk none (some 1) 0 3 false) (by decide)

/-- C12 (dereference is guarded), evaluated where it breaks: on the queue holding 1, 2,
after `begin()` and `erase()` the iterator is in the post-erase state; `*` throws
`IteratorPositionIllegal` there, and `->` returns the address of the next node's value.
At `end()` `*` throws as well, and `->` returns the address computed from the null
pointer. -/
theorem arrow_is_not_guarded :
    ∃ q1 it1, Iterator.erase q12 (begin 0 q12) = Res.ok (1, q1, it1) ∧
      it1.can_erase = false ∧
      Iterator.star q1 it1 = Res.fail (.thrown .IteratorPositionIllegal) ∧
      Iterator.arrow q1 it1 = Res.ok (some 1) ∧
      Iterator.star q12 (end_ 0 q12) = Res.fail (.thrown .IteratorPositionIllegal) ∧
      Iterator.arrow q12 (end_ 0 q12) = Res.ok none := by
  refine ⟨{ mem := [none, some ⟨2, none⟩], front := some 1, rear := some 1, used := 0,
            mod_count := 2 },
    ⟨none, some 1, 0, 2, false⟩, ?_, ?_, ?_, ?_, ?_, ?_⟩ <;> decide

/-- C13 (the advance rule, the same for both increments): on a queue in a regular state,
for an iterator that is not stale and whose `current` points to the cell at position `i`
of the chain, `++it` and `it++` both leave the iterator in the state the rule of the
specification gives (with the successor being the cell at position `i + 1`, or null), and
`it++` returns the iterator as it was. Neither writes to the queue. -/
theorem advance_rule (q : LinkedQueue T) (l : List (Nat × T)) (it : Iterator) (i a : Nat)
    (x : T) (hq : Regular q l) (hl : l[i]? = some (a, x)) (hcur : it.current = some a)
    (hfresh : it.expected_mod_count = q.mod_count) :
    Iterator.pre_inc q it = Res.ok (Iterator.advance_spec it (l[i + 1]?.map Prod.fst)) ∧
    Iterator.post_inc q it =
      Res.ok (it, Iterator.advance_spec it (l[i + 1]?.map Prod.fst)) ∧
    (it.can_erase = true →
      Iterator.advance_spec it (l[i + 1]?.map Prod.fst) =
        { it with prev := some a, current := l[i + 1]?.map Prod.fst }) ∧
    (it.can_erase = false →
      Iterator.advance_spec it (l[i + 1]?.map Prod.fst) = { it with can_erase := true }) :=
  ⟨pre_inc_at q l it i a x hq hl hcur hfresh, post_inc_at q l it i a x hq hl hcur hfresh,
   fun h => by simp [Iterator.advance_spec, h, hcur],
   fun h => by simp [Iterator.advance_spec, h]⟩

/-- Witness for C13: `begin()` on the queue holding 1, 2, 3. -/
theorem advance_rule_witness :
    Iterator.pre_inc q123 (begin 0 q123) = Res.ok (Iterator.mk (some 0) (some 1) 0 3 true) ∧
    Iterator.post_inc q123 (begin 0 q123) =
      Res.ok (begin 0 q123, Iterator.mk (some 0) (some 1) 0 3 true) :=
  have h := advance_rule q123 [(0, 1), (1, 2), (2, 3)] (begin 0 q123) 0 0 1 (by decide)
    (by decide) rfl rfl
  ⟨h.1, h.2.1⟩

/-- C14 (advancing at the end is a no-op), evaluated where it breaks: on a
default-constructed queue, on a cleared queue and on a queue whose only element was
erased, `rear` is null; `++it` on `begin()` returns the iterator unchanged, and `it++`
reads `rear->next` through the null pointer. -/
theorem post_inc_reads_null_rear :
    Iterator.pre_inc (init : LinkedQueue Nat) (begin 0 (init : LinkedQueue Nat)) =
      Res.ok (begin 0 (init : LinkedQueue Nat)) ∧
    Iterator.post_inc (init : LinkedQueue Nat) (begin 0 (init : LinkedQueue Nat)) =
      Res.fail .nullDereference ∧
    Iterator.post_inc (clear q12) (begin 0 (clear q12)) = Res.fail .nullDereference ∧
    (∃ q q1 it1, from_list [5] = Res.ok q ∧
      Iterator.erase q (begin 0 q) = Res.ok (5, q1, it1) ∧
      Iterator.pre_inc q1 it1 = Res.ok it1 ∧
      Iterator.post_inc q1 it1 = Res.fail .nullDereference) := by
  refine ⟨by decide, by decide, by decide,
    LinkedQueue.mk [some ⟨5, none⟩] (some 0) (some 0) 0 1,
    LinkedQueue.mk [none] none none 0 1,
    Iterator.mk none none 0 1 false, ?_, ?_, ?_, ?_⟩ <;> decide

/-- C16 (iterator comparison): for an iterator `a` that is not stale, comparing it with
an iterator `b` of another queue object throws `ComparingDifferentIteratorsError` from
both `==` and `!=`; with `b` on the same queue object `a == b` is true exactly when both
hold the same `current` pointer (the same node, or both null) and `a != b` is the
negation. `q.begin() == q.end()` is true exactly when `q` is empty. -/
theorem iterator_comparison (addr : Nat) (q : LinkedQueue T) (a b : Iterator)
    (hfresh : a.expected_mod_count = q.mod_count) :
    (a.ref_queue ≠ b.ref_queue →
      Iterator.op_eq q a b = Res.fail (.thrown .ComparingDifferentIteratorsError) ∧
      Iterator.op_ne q a b = Res.fail (.thrown .ComparingDifferentIteratorsError)) ∧
    (a.ref_queue = b.ref_queue →
      Iterator.op_eq q a b = Res.ok (decide (a.current = b.current)) ∧
      Iterator.op_ne q a b = Res.ok (!decide (a.current = b.current))) ∧
    Iterator.op_eq q (begin addr q) (end_ addr q) = Res.ok (empty q) ∧
    Iterator.op_ne q (begin addr q) (end_ addr q) = Res.ok (!empty q) := by
  refine ⟨?_, ?_, ?_, ?_⟩
  · intro h
    simp [Iterator.op_eq, Iterator.op_ne, hfresh, h, raise]
  · intro h
    simp only [Iterator.op_eq, Iterator.op_ne, hfresh, h, bne_self_eq_false,
      Bool.false_eq_true, if_false, Res.pure_eq, Res.ok.injEq]
    by_cases hc : a.current = b.current
    · simp [hc]
    · simp [hc]
  · simp [Iterator.op_eq, begin, end_, empty]
  · simp only [Iterator.op_ne, begin, end_, empty, bne_self_eq_false, Bool.false_eq_true,
      if_false, Res.pure_eq, Res.ok.injEq]
    cases q.front <;> simp

/-- Witness for C16: `begin()` of the queue holding 1, 2 against an iterator of another
queue object, and against `end()` of the same one. -/
theorem iterator_comparison_witness :
    Iterator.op_eq q12 (begin 0 q12) (begin 1 q123) =
      Res.fail (.thrown .ComparingDifferentIteratorsError) ∧
    Iterator.op_ne q12 (begin 0 q12) (end_ 0 q12) = Res.ok true :=
  ⟨((iterator_comparison 0 q12 (begin 0 q12) (begin 1 q123) rfl).1 (by decide)).1,
   ((iterator_comparison 0 q12 (begin 0 q12) (end_ 0 q12) rfl).2.1 rfl).2⟩

/-- C18 (head/tail invariant), evaluated where it breaks: after `enqueue(1)` and
`dequeue()` the queue is empty, `front` is null, and `rear` still points to the node that
was removed. -/
theorem dequeue_leaves_rear :
    ∃ q q1 : LinkedQueue Nat, enqueue_each init [1] = Res.ok q ∧
      dequeue q = Res.ok (1, q1) ∧ empty q1 = true ∧ q1.front = none ∧
      q1.rear = some 0 ∧ q1.rear ≠ none := by
  refine ⟨LinkedQueue.mk [some ⟨1, none⟩] (some 0) (some 0) 0 1,
    LinkedQueue.mk [some ⟨1, none⟩] none (some 0) 0 2, ?_, ?_, ?_, ?_, ?_, ?_⟩ <;> decide

/-- C19 as stated fails: assigning the queue holding 1, 2 to the queue holding 1, 2, 3
moves `mod_count` of the target from 3 to 7, and assigning an empty queue moves it by two.
At `mod_count` 2147483647, reached by that many `clear()` calls on a default-constructed
queue, one more `clear()` leaves -2147483648. -/
theorem assign_ticks_counterexample :
    (∃ a1, assign 0 q123 1 q12 = Res.ok a1 ∧ a1.mod_count = q123.mod_count + 4 ∧
      a1.mod_count ≠ q123.mod_count + 1) ∧
    (∃ a1, assign 0 q123 1 (init : LinkedQueue Nat) = Res.ok a1 ∧
      a1.mod_count = q123.mod_count + 2 ∧ a1.mod_count ≠ q123.mod_count + 1) ∧
    (∃ a : LinkedQueue Nat,
      Mutation.mutate_all 0 init (List.replicate 2147483647 Mutation.clear) = Res.ok a ∧
      a.mod_count = 2147483647 ∧ (clear a).mod_count = -2147483648 ∧
      (clear a).mod_count ≠ a.mod_count + 1) := by
  refine ⟨⟨LinkedQueue.mk [some ⟨1, some 1⟩, some ⟨2, some 2⟩, some ⟨3, none⟩,
      some ⟨1, some 4⟩, some ⟨2, none⟩] (some 3) (some 4) 0 7, ?_, ?_, ?_⟩,
    ⟨LinkedQueue.mk [some ⟨1, some 1⟩, some ⟨2, some 2⟩, some ⟨3, none⟩] none none 0 5,
      ?_, ?_, ?_⟩,
    ⟨LinkedQueue.mk [] none none 0 2147483647, ?_, rfl, ?_, ?_⟩⟩
  · decide
  · decide
  · decide
  · decide
  · decide
  · decide
  · rw [mutate_all_clear_pos 0 2147483647 (by decide)]
    rfl
  · decide
  · decide

/-- C19, amended: on a queue in a regular state `enqueue(v)` returns and executes
`++mod_count` once, a `dequeue()` that returns executes it once, `clear()` executes it once,
and a copy assignment from another queue object with `n` elements returns and executes it
`n + 2` times (once in its `clear()`, once in each `enqueue`, once itself). One
`++mod_count` adds one unless the counter is at 2147483647; so the assignment adds `n + 2`
when the old value plus `n + 2` does not exceed 2147483647. `dequeue()` and `peek()` on an
empty queue throw before anything is written. -/
theorem mutation_ticks (a_addr b_addr : Nat) (q b : LinkedQueue T) (l : List (Nat × T))
    (ys : List T) (hq : Regular q l) (hne : a_addr ≠ b_addr) (hb : elements b = some ys) :
    (∀ v, ∃ q1, enqueue q v = Res.ok (1, q1) ∧ q1.mod_count = incr q.mod_count) ∧
    (∀ x q1, dequeue q = Res.ok (x, q1) → q1.mod_count = incr q.mod_count) ∧
    (l ≠ [] → ∃ x q1, dequeue q = Res.ok (x, q1)) ∧
    (clear q).mod_count = incr q.mod_count ∧
    (∃ q1, assign a_addr q b_addr b = Res.ok q1 ∧
      q1.mod_count = incr^[ys.length + 2] q.mod_count ∧
      (-2147483648 ≤ q.mod_count → q.mod_count + ys.length + 2 ≤ 2147483647 →
        q1.mod_count = q.mod_count + ys.length + 2)) ∧
    (-2147483648 ≤ q.mod_count → q.mod_count < 2147483647 →
      incr q.mod_count = q.mod_count + 1) ∧
    (l = [] → dequeue q = Res.fail (.thrown .EmptyError) ∧
      peek q = Res.fail (.thrown .EmptyError)) := by
  refine ⟨?_, ?_, ?_, rfl, ?_, ?_, ?_⟩
  · intro v
    obtain ⟨q1, he, _, hm, _⟩ := enqueue_regular q l v hq
    exact ⟨q1, he, hm⟩
  · intro x q1 h
    exact mutate_mod_count 0 q q1 Mutation.dequeue rfl (by simp [Mutation.mutate, h])
  · intro hl
    cases l with
    | nil => exact absurd rfl hl
    | cons c l =>
      obtain ⟨a, x⟩ := c
      obtain ⟨q1, hd, _⟩ := dequeue_regular q a x l hq
      exact ⟨x, q1, hd⟩
  · simp only [elements, Option.map_eq_some'] at hb
    obtain ⟨lb, hlb, rfl⟩ := hb
    obtain ⟨q1, l1, ha, _, _, hm⟩ := assign_regular a_addr b_addr q b lb hne hlb
    have hm' : q1.mod_count = incr^[(lb.map Prod.snd).length + 2] q.mod_count := by
      rw [hm, ← Function.iterate_succ_apply, ← Function.iterate_succ_apply' incr,
        List.length_map]
    refine ⟨q1, ha, hm', ?_⟩
    intro hlo hhi
    rw [hm', iterate_incr, wrap32_of_range _ (by omega) (by push_cast at hhi ⊢; omega)]
    push_cast
    ring
  · intro hlo hhi
    unfold incr
    exact wrap32_of_range _ (by omega) (by omega)
  · intro hl
    subst hl
    have he := empty_of_regular_nil hq
    have hf : q.front = none := by simpa [empty] using he
    exact ⟨by simp [dequeue, he, raise], by simp [peek, hf, raise]⟩

/-- Witness for C19: the queue holding 1, 2, 3 as target and the queue holding 1, 2 as
source. -/
theorem mutation_ticks_witness :
    (∀ v, ∃ q1, enqueue q123 v = Res.ok (1, q1) ∧ q1.mod_count = incr q123.mod_count) ∧
    (∀ x q1, dequeue q123 = Res.ok (x, q1) → q1.mod_count = incr q123.mod_count) ∧
    ([(0, 1), (1, 2), (2, 3)] ≠ ([] : List (Nat × Nat)) →
      ∃ x q1, dequeue q123 = Res.ok (x, q1)) ∧
    (clear q123).mod_count = incr q123.mod_count ∧
    (∃ q1, assign 0 q123 1 q12 = Res.ok q1 ∧
      q1.mod_count = incr^[([1, 2] : List Nat).length + 2] q123.mod_count ∧
      (-2147483648 ≤ q123.mod_count →
        q123.mod_count + ([1, 2] : List Nat).length + 2 ≤ 2147483647 →
        q1.mod_count = q123.mod_count + ([1, 2] : List Nat).length + 2)) ∧
    (-2147483648 ≤ q123.mod_count → q123.mod_count < 2147483647 →
      incr q123.mod_count = q123.mod_count + 1) ∧
    ([(0, 1), (1, 2), (2, 3)] = ([] : List (Nat × Nat)) →
      dequeue q123 = Res.fail (.thrown .EmptyError) ∧
      peek q123 = Res.fail (.thrown .EmptyError)) :=
  mutation_ticks 0 1 q123 q12 [(0, 1), (1, 2), (2, 3)] [1, 2] (by decide) (by decide)
    (by decide)

/-- C20 (the queue refines the list model): for every sequence of `enqueue`, `dequeue`
and `clear` calls on a default-constructed queue, in any order, the run returns, every
reply and every `empty()` and `size()` seen after a call is the one the list model
predicts (`enqueue` returns 1 and appends, `dequeue` returns and removes the first
element or throws `EmptyError` on the empty list, `clear` empties), and the values read
from `front` along `next` are the list the model ends with. As this holds for every call
sequence it holds after every call of a run, whatever `rear` was left pointing to when
the queue became empty. -/
theorem list_model_refinement (cs : List (Call T)) :
    ∃ q, observe (init : LinkedQueue T) cs = Res.ok ((ListModel.observe [] cs).1, q) ∧
      elements q = some (ListModel.observe [] cs).2 := by
  obtain ⟨q, l, ho, hr, hl⟩ := observe_refines cs (init : LinkedQueue T) [] regular_init
  refine ⟨q, by simpa using ho, ?_⟩
  rw [elements_of_cells hr.1, hl]
  rfl

/-- C15 (erase-all drains the queue): on a queue in a regular state holding `x1..xn`
(`n` may be 0), the loop `it = begin(); while (it != end()) { it.erase(); ++it; }`
returns after one `erase()` per element, the calls return `x1, ..., xn` in order, no call
fails, and afterwards `empty()` is true, `size()` is 0 and the queue compares equal to a
default-constructed one. -/
theorem erase_all_drains [DecidableEq T] (addr : Nat) (q : LinkedQueue T)
    (l : List (Nat × T)) (hq : Regular q l) :
    ∃ q1 it1, erase_all addr q = Res.ok (l.map Prod.snd, q1, it1) ∧
      (l.map Prod.snd).length = l.length ∧
      empty q1 = true ∧ size q1 = Res.ok 0 ∧ op_eq q1 init = Res.ok true := by
  obtain ⟨q1, it1, hloop, hr1, _⟩ :=
    erase_all_loop_spec addr l (q.mem.length + 1) q (begin addr q) []
      hq (begin_tracks addr q l hq) (fun _ => rfl) rfl
      (Nat.le_succ_of_le (regular_length_le hq))
  refine ⟨q1, it1, by simpa [erase_all] using hloop, by simp, empty_of_regular_nil hr1, ?_,
    ?_⟩
  · simpa using size_of_cells hr1.1
  · rw [op_eq_of_cells hr1.1 (regular_init (T := T)).1]
    simp

/-- Witness for C15: draining the queue holding 1, 2, 3. -/
theorem erase_all_drains_witness :
    ∃ q1 it1, erase_all 0 q123 = Res.ok ([1, 2, 3], q1, it1) ∧
      ([1, 2, 3] : List Nat).length = 3 ∧
      empty q1 = true ∧ size q1 = Res.ok 0 ∧ op_eq q1 init = Res.ok true :=
  erase_all_drains 0 q123 [(0, 1), (1, 2), (2, 3)] (by decide)

/-- C17 (erase while iterating neither skips nor repeats): on a queue in a regular state
holding `xs`, for every predicate `p`, the loop
`for (it = begin(); it != end(); ++it) { v = *it; if (p(v)) it.erase(); }` returns without
a failing call; it reads every element of `xs` once, in order, each `erase()` returns the
value read just before it, and the queue then holds `xs` without the elements that satisfy
`p`, in their old order. -/
theorem erase_while_iterating (p : T → Bool) (addr : Nat) (q : LinkedQueue T)
    (l : List (Nat × T)) (hq : Regular q l) :
    ∃ q1 it1, erase_if p addr q = Res.ok (expected_events p (l.map Prod.snd), q1, it1) ∧
      elements q1 = some ((l.map Prod.snd).filter (fun x => !p x)) := by
  obtain ⟨q1, it1, hloop, hr1, _⟩ :=
    erase_if_loop_spec p addr l [] (q.mem.length + 1) q (begin addr q) []
      (by simpa using hq) (by simpa using begin_tracks addr q l hq) (fun _ => rfl) rfl
      (Nat.le_succ_of_le (regular_length_le hq))
  refine ⟨q1, it1, by simpa [erase_if] using hloop, ?_⟩
  have hr1' : Regular q1 (l.filter (fun c => !p c.2)) := by simpa using hr1
  rw [elements_of_cells hr1'.1, filter_map_snd]

/-- Witness for C17: erasing the even elements of the queue holding 1, 2, 3, and the
scenario of the specification step by step: `*` gives 1, `++`, `erase()` returns 2 and the
size becomes 2, the next `++` does not move and sets `can_erase`, `*` gives 3. -/
theorem erase_while_iterating_witness :
    (∃ q1 it1, erase_if (fun x => x % 2 == 0) 0 q123 =
        Res.ok ([Event.deref 1, Event.deref 2, Event.erased 2, Event.deref 3], q1, it1) ∧
      elements q1 = some [1, 3]) ∧
    Iterator.star q123 (begin 0 q123) = Res.ok 1 ∧
    Iterator.pre_inc q123 (begin 0 q123) = Res.ok (Iterator.mk (some 0) (some 1) 0 3 true) ∧
    Iterator.erase q123 (Iterator.mk (some 0) (some 1) 0 3 true) =
      Res.ok (2, LinkedQueue.mk [some ⟨1, some 2⟩, none, some ⟨3, none⟩] (some 0) (some 2) 0 3,
        Iterator.mk (some 0) (some 2) 0 3 false) ∧
    size (LinkedQueue.mk [some ⟨1, some 2⟩, none, some ⟨3, none⟩] (some 0) (some 2) 0 3) =
      Res.ok 2 ∧
    Iterator.pre_inc
        (LinkedQueue.mk [some ⟨1, some 2⟩, none, some ⟨3, none⟩] (some 0) (some 2) 0 3)
        (Iterator.mk (some 0) (some 2) 0 3 false) =
      Res.ok (Iterator.mk (some 0) (some 2) 0 3 true) ∧
    Iterator.star
        (LinkedQueue.mk [some ⟨1, some 2⟩, none, some ⟨3, none⟩] (some 0) (some 2) 0 3)
        (Iterator.mk (some 0) (some 2) 0 3 true) = Res.ok 3 :=
  ⟨erase_while_iterating (fun x => x % 2 == 0) 0 q123 [(0, 1), (1, 2), (2, 3)] (by decide),
   by decide, by decide, by decide, by decide, by decide, by decide⟩

end Claims

end ics
